import Mathlib

set_option maxHeartbeats 1000000
set_option maxRecDepth 100000
set_option exponentiation.threshold 2000

/-!
# Verification of the JSON-selection arrow methods

Shallow embedding of
`src/apollo-federation/src/sources/connect/json_selection/methods.rs`
(the evaluator's method-dispatch layer of the JSON Selection language).

Modelling conventions:

* Rust `i64`/`usize` values are Lean `Int`/`Nat` with explicit wrapping
  (`% 2 ^ 64`) exactly where the compiled release profile wraps; the
  arithmetic operations that panic unconditionally in Rust (integer
  division/remainder with a zero divisor, or `i64::MIN` divided by `-1`)
  are modelled by the `PanicOr.panicked` outcome.  Overflow of `i64`
  addition/subtraction/multiplication is modelled with the release
  profile's two's-complement wrapping (the debug profile would panic).
* Rust `f64` values are modelled as exact rational numbers.  All floating
  values appearing in this development are small dyadic rationals on which
  IEEE-754 double arithmetic is exact, so the model agrees with the code on
  them.  A result counts as representable (`Number::from_f64` returns
  `Some`) iff its magnitude does not exceed the largest finite `f64`;
  division/remainder by zero produces a non-finite `f64`, hence `None`.
* JSON strings are UTF-8 texts, modelled as `List Char` together with the
  byte-level length and byte-range indexing that `str` uses in Rust
  (including the panics of out-of-bounds / reversed / non-character-boundary
  ranges).
* The collaborators that live outside `src/` (`JSLiteral`, `PathList`,
  `MethodArgs`, `InputPath`, `ApplyToError`, `json_type_name`) are modelled
  from the spec, as indicated by doc comments starting with
  `Modelled from the spec:`.
-/

/-- Outcome of running Rust code that may panic: either the computed value,
or an unwinding panic. -/
inductive PanicOr (α : Type) where
  | ok (a : α)
  | panicked

/-- Map over a non-panicking outcome. -/
def PanicOr.map {α β : Type} (f : α → β) : PanicOr α → PanicOr β
  | .ok a => .ok (f a)
  | .panicked => .panicked

/-- Sequence two possibly-panicking computations. -/
def PanicOr.bind {α β : Type} : PanicOr α → (α → PanicOr β) → PanicOr β
  | .ok a, f => f a
  | .panicked, _ => .panicked

/-- Greatest `i64` value, `2^63 - 1`. -/
def i64Max : Int := 2 ^ 63 - 1

/-- Least `i64` value, `-2^63`. -/
def i64Min : Int := -(2 ^ 63)

/-- Rust `i64` addition/subtraction/multiplication as compiled in the release
profile: two's-complement wrapping into `[-2^63, 2^63)`. -/
def wrapI64 (n : Int) : Int := (n + 2 ^ 63) % 2 ^ 64 - 2 ^ 63

/-- Exact rational addition (stated through `mkRat` so that the kernel can
evaluate it on concrete values). -/
def ratAdd (a b : Rat) : Rat :=
  mkRat (a.num * (b.den : Int) + b.num * (a.den : Int)) (a.den * b.den)

/-- Exact rational subtraction. -/
def ratSub (a b : Rat) : Rat :=
  mkRat (a.num * (b.den : Int) - b.num * (a.den : Int)) (a.den * b.den)

/-- Exact rational multiplication. -/
def ratMul (a b : Rat) : Rat := mkRat (a.num * b.num) (a.den * b.den)

/-- Exact rational division (of a nonzero divisor). -/
def ratDiv (a b : Rat) : Rat :=
  if b.num < 0 then mkRat (-(a.num * (b.den : Int))) (a.den * (-b.num).toNat)
  else mkRat (a.num * (b.den : Int)) (a.den * b.num.toNat)

/-- Rational absolute value. -/
def ratAbs (a : Rat) : Rat := if a.num < 0 then mkRat (-a.num) a.den else a

/-- Largest finite `f64` magnitude, `(2 - 2^-52) * 2^1023 = 2^1024 - 2^971`. -/
def f64MaxAbs : Rat := mkRat ((Nat.pow 2 1024 : Int) - (Nat.pow 2 971 : Int)) 1

/-- `serde_json` `Number`: an unsigned 64-bit integer, a negative signed
64-bit integer, or a double (modelled as an exact rational). -/
inductive Number where
  | posInt (n : Nat)
  | negInt (n : Int)
  | float (q : Rat)

/-- `Number::is_f64`: true exactly for the double variant. -/
def Number.isF64 : Number → Bool
  | .float _ => true
  | _ => false

/-- `Number::as_i64`: the value as an `i64` when representable; `None` for
doubles and for unsigned values above `i64::MAX`. -/
def Number.asI64 : Number → Option Int
  | .posInt n => if (n : Int) ≤ i64Max then some n else none
  | .negInt n => some n
  | .float _ => none

/-- `Number::as_f64`: every variant converts (the conversion is exact in this
model). -/
def Number.asF64 : Number → Rat
  | .posInt n => mkRat n 1
  | .negInt n => mkRat n 1
  | .float q => q

/-- `Number::from(i64)`: negative values become the negative-integer variant,
others the unsigned variant. -/
def Number.fromI64 (n : Int) : Number :=
  if n < 0 then .negInt n else .posInt n.toNat

/-- `Number::from_f64`: `Some` for finite doubles, `None` for NaN/infinite
ones.  In the exact-rational model a result is finite iff its magnitude is
at most the largest finite `f64`. -/
def Number.fromF64 (q : Rat) : Option Number :=
  if ratAbs q ≤ f64MaxAbs then some (.float q) else none

/-- Structural equality of numbers, following `serde_json`'s derived
`PartialEq` on the canonical three-variant representation. -/
def Number.beq : Number → Number → Bool
  | .posInt a, .posInt b => a == b
  | .negInt a, .negInt b => a == b
  | .float a, .float b => decide (a = b)
  | _, _ => false

/-- A JSON value (`serde_json_bytes::Value`): null, boolean, number, string
(a UTF-8 text, as a list of characters), array, or object with
insertion-ordered fields. -/
inductive JSON where
  | null
  | boolean (b : Bool)
  | number (n : Number)
  | string (s : List Char)
  | array (xs : List JSON)
  | object (fields : List (String × JSON))

mutual

/-- Deep, value-based equality of JSON values (`serde`'s `==`). -/
def JSON.beq : JSON → JSON → Bool
  | .null, .null => true
  | .boolean a, .boolean b => a == b
  | .number a, .number b => a.beq b
  | .string a, .string b => a == b
  | .array a, .array b => JSON.beqList a b
  | .object a, .object b => JSON.beqFields a b
  | _, _ => false

/-- Elementwise deep equality of JSON arrays. -/
def JSON.beqList : List JSON → List JSON → Bool
  | [], [] => true
  | x :: xs, y :: ys => x.beq y && JSON.beqList xs ys
  | _, _ => false

/-- Fieldwise deep equality of JSON objects (order-sensitive, as in the
insertion-ordered map). -/
def JSON.beqFields : List (String × JSON) → List (String × JSON) → Bool
  | [], [] => true
  | (k1, v1) :: xs, (k2, v2) :: ys => k1 == k2 && v1.beq v2 && JSON.beqFields xs ys
  | _, _ => false

end

/-- `Value::as_i64` on a JSON value: numbers only. -/
def JSON.asI64 : JSON → Option Int
  | .number n => n.asI64
  | _ => none

/-- Whether a JSON value is an array. -/
def JSON.isArray : JSON → Bool
  | .array _ => true
  | _ => false

/-- Modelled from the spec: `InputPath` (module `immutable`, outside `src/`)
is an append-only sequence of string/integer segments; appending never
mutates the original, and `to_vec` lists the segments.  We model it as the
listed segments directly. -/
abbrev InputPath := List JSON

/-- Modelled from the spec: `VarsWithPathsMap` maps variable names to
(value, path) pairs.  The methods in `src/` only thread it through, so the
model never inspects it. -/
abbrev VarsWithPathsMap := List (String × JSON × List JSON)

/-- Modelled from the spec: `ApplyToError` is a human-readable message plus
the input path at which the error occurred. -/
structure ApplyToError where
  message : String
  path : List JSON

/-- Equality of errors: same message and same path (the deduplication key of
the accumulator). -/
def ApplyToError.beq (a b : ApplyToError) : Bool :=
  a.message == b.message && JSON.beqList a.path b.path

/-- Modelled from the spec: the error accumulator `IndexSet<ApplyToError>` is
an insertion-ordered, duplicate-eliminating collection.  `insertError`
appends the error unless an equal one is already present. -/
def insertError (errors : List ApplyToError) (e : ApplyToError) : List ApplyToError :=
  if errors.any (fun x => x.beq e) then errors else errors ++ [e]

/-- Modelled from the spec: `JSLiteral` (the argument-expression AST, outside
`src/`).  `match`/`matchIf` pattern-match on array literals, so the array
form is kept explicit; every other expression form (number/string literals,
variables such as `$`/`@`, nested paths and method chains) is abstracted as
its `apply_to_path` evaluation function, which per the spec returns an
optional value and the updated error accumulator. -/
inductive JSLiteral where
  | array (elements : List JSLiteral)
  | expr (f : JSON → VarsWithPathsMap → InputPath → List ApplyToError → Option JSON × List ApplyToError)

mutual

/-- Modelled from the spec: evaluating an argument expression against the
current data.  An abstract expression runs its evaluation function; an array
literal evaluates its elements in order against the same data and yields an
array iff every element yields a value. -/
def JSLiteral.apply_to_path : JSLiteral → JSON → VarsWithPathsMap → InputPath →
    List ApplyToError → Option JSON × List ApplyToError
  | .expr f, data, vars, input_path, errors => f data vars input_path errors
  | .array elements, data, vars, input_path, errors =>
    match JSLiteral.applyElements elements data vars input_path errors with
    | (some vals, errors) => (some (.array vals), errors)
    | (none, errors) => (none, errors)

/-- Evaluate the elements of an array literal in order, stopping at the first
element that yields no value. -/
def JSLiteral.applyElements : List JSLiteral → JSON → VarsWithPathsMap → InputPath →
    List ApplyToError → Option (List JSON) × List ApplyToError
  | [], _, _, _, errors => (some [], errors)
  | l :: ls, data, vars, input_path, errors =>
    match l.apply_to_path data vars input_path errors with
    | (some v, errors) =>
      match JSLiteral.applyElements ls data vars input_path errors with
      | (some vs, errors) => (some (v :: vs), errors)
      | (none, errors) => (none, errors)
    | (none, errors) => (none, errors)

end

/-- `MethodArgs`: the ordered list of argument expressions of one method
invocation; the surrounding `Option` (below) distinguishes `->m` (no
parentheses, `none`) from `->m()` (empty list). -/
structure MethodArgs where
  args : List JSLiteral

/-- Modelled from the spec: `PathList` is the not-yet-evaluated tail of the
expression after the current method call; its `apply_to_path` applies the
remaining segments to a value, returning an optional result and the updated
error accumulator.  We model it by that function. -/
structure PathList where
  apply_to_path : JSON → VarsWithPathsMap → InputPath → List ApplyToError →
    Option JSON × List ApplyToError

/-- The type of an arrow method, mirroring the `ArrowMethod` function-pointer
type of the source: name, optional arguments, input data, variables, input
path, tail, and the error accumulator; the result is the optional output
value together with the updated accumulator, or a Rust panic. -/
abbrev ArrowMethod := String → Option MethodArgs → JSON → VarsWithPathsMap →
  InputPath → PathList → List ApplyToError → PanicOr (Option JSON × List ApplyToError)

/-- Modelled from the spec: `json_type_name` (module `helpers`, outside
`src/`) names the runtime kind of a JSON value; `null` is reported as
`"null"`. -/
def json_type_name : JSON → String
  | .object _ => "object"
  | .array _ => "array"
  | .string _ => "string"
  | .number _ => "number"
  | .boolean _ => "boolean"
  | .null => "null"

/-- Truncate a rational toward zero (the rounding of Rust's float `%`). -/
def ratTrunc (q : Rat) : Int := q.num.tdiv (q.den : Int)

/-- Digits of the terminating decimal expansion of a fraction in `[0, 1)`,
with enough fuel for every exactly-representable double. -/
def fracDigits : Rat → Nat → List Char
  | _, 0 => []
  | q, fuel + 1 =>
    if q.num = 0 then []
    else
      let q10 := ratMul q (mkRat 10 1)
      let d : Int := q10.num.tdiv (q10.den : Int)
      Char.ofNat (48 + d.toNat) :: fracDigits (ratSub q10 (mkRat d 1)) fuel

/-- Decimal display of a double value (the `Display` that the arithmetic
error messages use).  In the exact-rational model this prints the exact
terminating decimal, which agrees with the shortest round-trip form on the
values arising here; integral values print with a trailing `.0`. -/
def ratDisplay (q : Rat) : String :=
  let sign := if q.num < 0 then "-" else ""
  let aq := ratAbs q
  let ip : Int := aq.num.tdiv (aq.den : Int)
  let fd := fracDigits (ratSub aq (mkRat ip 1)) 1100
  sign ++ toString ip ++ "." ++ (if fd.isEmpty then "0" else String.mk fd)

/-- `Display` of a `serde_json` number: integers in decimal, doubles in
decimal with a fractional part. -/
def Number.display : Number → String
  | .posInt n => toString n
  | .negInt n => toString n
  | .float q => ratDisplay q

/-- Rust `i64` division: panics on a zero divisor and on `i64::MIN / -1`
(both checks are active in every build profile); otherwise truncating
division. -/
def i64Div (a b : Int) : PanicOr Int :=
  if b = 0 then .panicked
  else if a = i64Min ∧ b = -1 then .panicked
  else .ok (a.tdiv b)

/-- Rust `i64` remainder: panics on a zero divisor and on `i64::MIN % -1`;
otherwise the remainder with the sign of the dividend. -/
def i64Rem (a b : Int) : PanicOr Int :=
  if b = 0 then .panicked
  else if a = i64Min ∧ b = -1 then .panicked
  else .ok (a.tmod b)

/-- The shared shape of `infix_math_op!`: if either operand is a double,
compute in doubles and pass the result to `Number::from_f64`; else if both
operands fit in `i64`, combine them with the integer operation; else `None`.
The integer operation may panic (division/remainder); the double operation
returns `none` exactly when the IEEE result is non-finite. -/
def infix_math_op (intOp : Int → Int → PanicOr Int) (floatOp : Rat → Rat → Option Rat)
    (a b : Number) : PanicOr (Option Number) :=
  if a.isF64 || b.isF64 then
    .ok ((floatOp a.asF64 b.asF64).bind Number.fromF64)
  else
    match a.asI64, b.asI64 with
    | some ai, some bi => (intOp ai bi).map (fun r => some (Number.fromI64 r))
    | _, _ => .ok none

/-- `add_op`: wrapping `i64` addition / exact double addition. -/
def add_op : Number → Number → PanicOr (Option Number) :=
  infix_math_op (fun a b => .ok (wrapI64 (a + b))) (fun a b => some (ratAdd a b))

/-- `sub_op`: wrapping `i64` subtraction / exact double subtraction. -/
def sub_op : Number → Number → PanicOr (Option Number) :=
  infix_math_op (fun a b => .ok (wrapI64 (a - b))) (fun a b => some (ratSub a b))

/-- `mul_op`: wrapping `i64` multiplication / exact double multiplication. -/
def mul_op : Number → Number → PanicOr (Option Number) :=
  infix_math_op (fun a b => .ok (wrapI64 (a * b))) (fun a b => some (ratMul a b))

/-- `div_op`: `i64` division (panicking on zero divisors) / double division,
whose IEEE result is non-finite exactly when the divisor is zero. -/
def div_op : Number → Number → PanicOr (Option Number) :=
  infix_math_op i64Div (fun a b => if b.num = 0 then none else some (ratDiv a b))

/-- `rem_op`: `i64` remainder (panicking on zero divisors) / double `%`,
which is NaN when the divisor is zero. -/
def rem_op : Number → Number → PanicOr (Option Number) :=
  infix_math_op i64Rem
    (fun a b =>
      if b.num = 0 then none
      else some (ratSub a (ratMul b (mkRat (ratTrunc (ratDiv a b)) 1))))

/-- `echo_method`: return the first argument's value, ignoring the data, with
the tail applied; an absent or empty argument list is an arity error. -/
def echo_method : ArrowMethod := fun method_name method_args data vars input_path tail errors =>
  match method_args with
  | some ⟨arg :: _⟩ =>
    match arg.apply_to_path data vars input_path errors with
    | (some value, errors) => .ok (tail.apply_to_path value vars input_path errors)
    | (none, errors) => .ok (none, errors)
  | some ⟨[]⟩ =>
    .ok (none, insertError errors
      ⟨"Method ->" ++ method_name ++ " requires one argument", input_path⟩)
  | none =>
    .ok (none, insertError errors
      ⟨"Method ->" ++ method_name ++ " requires one argument", input_path⟩)

/-- `typeof_method`: the runtime kind of the data as a string, tail applied;
any argument list (even an empty one) is an arity error. -/
def typeof_method : ArrowMethod := fun method_name method_args data vars input_path tail errors =>
  match method_args with
  | some _ =>
    .ok (none, insertError errors
      ⟨"Method ->" ++ method_name ++ " does not take any arguments", input_path⟩)
  | none =>
    .ok (tail.apply_to_path (.string (json_type_name data).toList) vars input_path errors)

/-- The per-element loop of `map_method` over an array: evaluate the first
argument against each element with the path extended by the index, apply the
tail on success, and push `null` whenever the argument or the tail yields no
value. -/
def mapLoop (first_arg : JSLiteral) (tail : PathList) (vars : VarsWithPathsMap)
    (input_path : InputPath) : List JSON → Nat → List ApplyToError →
    List JSON × List ApplyToError
  | [], _, errors => ([], errors)
  | element :: rest, i, errors =>
    let path_i : InputPath := input_path ++ [JSON.number (.posInt i)]
    match first_arg.apply_to_path element vars path_i errors with
    | (some applied, errors) =>
      match tail.apply_to_path applied vars path_i errors with
      | (some value, errors) =>
        let (out, errors) := mapLoop first_arg tail vars input_path rest (i + 1) errors
        (value :: out, errors)
      | (none, errors) =>
        let (out, errors) := mapLoop first_arg tail vars input_path rest (i + 1) errors
        (JSON.null :: out, errors)
    | (none, errors) =>
      let (out, errors) := mapLoop first_arg tail vars input_path rest (i + 1) errors
      (JSON.null :: out, errors)

/-- `map_method`: broadcast the first argument over an array (always
producing an array of the same length, with `null` at failed elements), or
evaluate it directly against non-array data; a missing argument is an arity
error. -/
def map_method : ArrowMethod := fun method_name method_args data vars input_path tail errors =>
  match method_args with
  | some ⟨first_arg :: _⟩ =>
    match data with
    | .array array =>
      let (output, errors) := mapLoop first_arg tail vars input_path array 0 errors
      .ok (some (.array output), errors)
    | _ => .ok (first_arg.apply_to_path data vars input_path errors)
  | some ⟨[]⟩ =>
    .ok (none, insertError errors
      ⟨"Method ->" ++ method_name ++ " requires one argument", input_path⟩)
  | none =>
    .ok (none, insertError errors
      ⟨"Method ->" ++ method_name ++ " requires one argument", input_path⟩)

/-- `eq_method`: deep equality of the data with the single argument's value
(an argument that yields no value counts as unequal), tail applied to the
boolean; any other arity is an error. -/
def eq_method : ArrowMethod := fun method_name method_args data vars input_path tail errors =>
  match method_args with
  | some ⟨[arg]⟩ =>
    match arg.apply_to_path data vars input_path errors with
    | (some value, errors) =>
      .ok (tail.apply_to_path (.boolean (data.beq value)) vars input_path errors)
    | (none, errors) =>
      .ok (tail.apply_to_path (.boolean false) vars input_path errors)
  | some ⟨_⟩ =>
    .ok (none, insertError errors
      ⟨"Method ->" ++ method_name ++ " requires exactly one argument", input_path⟩)
  | none =>
    .ok (none, insertError errors
      ⟨"Method ->" ++ method_name ++ " requires exactly one argument", input_path⟩)

/-- The pair-scanning loop of `match_method`: a one-element array literal is
an unconditional default; a two-element array literal returns its second
entry when the first evaluates to a value deep-equal to the data; every
other entry is skipped. -/
def matchLoop (method_name : String) (data : JSON) (vars : VarsWithPathsMap)
    (input_path : InputPath) (tail : PathList) : List JSLiteral →
    List ApplyToError → PanicOr (Option JSON × List ApplyToError)
  | [], errors =>
    .ok (none, insertError errors
      ⟨"Method ->" ++ method_name ++ " did not match any [candidate, value] pair", input_path⟩)
  | .array [v] :: _, errors =>
    match v.apply_to_path data vars input_path errors with
    | (some value, errors) => .ok (tail.apply_to_path value vars input_path errors)
    | (none, errors) => .ok (none, errors)
  | .array [candidate, value] :: rest, errors =>
    match candidate.apply_to_path data vars input_path errors with
    | (some c, errors) =>
      if c.beq data then
        match value.apply_to_path data vars input_path errors with
        | (some v, errors) => .ok (tail.apply_to_path v vars input_path errors)
        | (none, errors) => .ok (none, errors)
      else matchLoop method_name data vars input_path tail rest errors
    | (none, errors) => matchLoop method_name data vars input_path tail rest errors
  | _ :: rest, errors => matchLoop method_name data vars input_path tail rest errors

/-- `match_method`: scan `[candidate, value]` pairs for the first candidate
deep-equal to the data (`[default]` matching unconditionally); report a
no-match error when the scan is exhausted. -/
def match_method : ArrowMethod := fun method_name method_args data vars input_path tail errors =>
  match method_args with
  | some ⟨args⟩ => matchLoop method_name data vars input_path tail args errors
  | none =>
    .ok (none, insertError errors
      ⟨"Method ->" ++ method_name ++ " did not match any [candidate, value] pair", input_path⟩)

/-- The pair-scanning loop of `match_if_method`: only two-element array
literals participate; the second entry is returned for the first pair whose
first entry evaluates to exactly the boolean `true`. -/
def matchIfLoop (method_name : String) (data : JSON) (vars : VarsWithPathsMap)
    (input_path : InputPath) (tail : PathList) : List JSLiteral →
    List ApplyToError → PanicOr (Option JSON × List ApplyToError)
  | [], errors =>
    .ok (none, insertError errors
      ⟨"Method ->" ++ method_name ++ " did not match any [condition, value] pair", input_path⟩)
  | .array [condition, value] :: rest, errors =>
    match condition.apply_to_path data vars input_path errors with
    | (some (.boolean true), errors) =>
      match value.apply_to_path data vars input_path errors with
      | (some v, errors) => .ok (tail.apply_to_path v vars input_path errors)
      | (none, errors) => .ok (none, errors)
    | (_, errors) => matchIfLoop method_name data vars input_path tail rest errors
  | _ :: rest, errors => matchIfLoop method_name data vars input_path tail rest errors

/-- `match_if_method` (`->matchIf` / `->match_if`): return the second entry
of the first pair whose condition evaluates to `true`; report a no-match
error when the scan is exhausted. -/
def match_if_method : ArrowMethod := fun method_name method_args data vars input_path tail errors =>
  match method_args with
  | some ⟨args⟩ => matchIfLoop method_name data vars input_path tail args errors
  | none =>
    .ok (none, insertError errors
      ⟨"Method ->" ++ method_name ++ " did not match any [condition, value] pair", input_path⟩)

/-- The folding loop of `arithmetic_method`: each argument is evaluated
against the original input data (not the running result); a non-numeric
value is a type error, an unrepresentable combination is a
"failed on argument" error, and a panicking integer operation unwinds. -/
def arithLoop (method_name : String) (op : Number → Number → PanicOr (Option Number))
    (data : JSON) (vars : VarsWithPathsMap) (input_path : InputPath) :
    List JSLiteral → Number → List ApplyToError →
    PanicOr (Option JSON × List ApplyToError)
  | [], result, errors => .ok (some (.number result), errors)
  | arg :: rest, result, errors =>
    match arg.apply_to_path data vars input_path errors with
    | (some (.number n), errors) =>
      match op result n with
      | .panicked => .panicked
      | .ok (some new_result) =>
        arithLoop method_name op data vars input_path rest new_result errors
      | .ok none =>
        .ok (none, insertError errors
          ⟨"Method ->" ++ method_name ++ " failed on argument " ++ n.display, input_path⟩)
    | (some _, errors) =>
      .ok (none, insertError errors
        ⟨"Method ->" ++ method_name ++ " requires numeric arguments", input_path⟩)
    | (none, errors) =>
      .ok (none, insertError errors
        ⟨"Method ->" ++ method_name ++ " requires numeric arguments", input_path⟩)

/-- `arithmetic_method`: left-fold the evaluated arguments into the data's
number; non-numeric data is a type error, and an absent argument list (no
parentheses) is an arity error. -/
def arithmetic_method (method_name : String) (method_args : Option MethodArgs)
    (op : Number → Number → PanicOr (Option Number)) (data : JSON)
    (vars : VarsWithPathsMap) (input_path : InputPath) (errors : List ApplyToError) :
    PanicOr (Option JSON × List ApplyToError) :=
  match method_args with
  | some ⟨args⟩ =>
    match data with
    | .number result => arithLoop method_name op data vars input_path args result errors
    | _ =>
      .ok (none, insertError errors
        ⟨"Method ->" ++ method_name ++ " requires numeric arguments", input_path⟩)
  | none =>
    .ok (none, insertError errors
      ⟨"Method ->" ++ method_name ++ " requires at least one argument", input_path⟩)

/-- The shared shape of `infix_math_method!`: run `arithmetic_method` and
apply the tail to a successful result. -/
def infix_math_method (op : Number → Number → PanicOr (Option Number)) : ArrowMethod :=
  fun method_name method_args data vars input_path tail errors =>
    match arithmetic_method method_name method_args op data vars input_path errors with
    | .panicked => .panicked
    | .ok (some result, errors) => .ok (tail.apply_to_path result vars input_path errors)
    | .ok (none, errors) => .ok (none, errors)

/-- `->add`. -/
def add_method : ArrowMethod := infix_math_method add_op

/-- `->sub`. -/
def sub_method : ArrowMethod := infix_math_method sub_op

/-- `->mul`. -/
def mul_method : ArrowMethod := infix_math_method mul_op

/-- `->div`. -/
def div_method : ArrowMethod := infix_math_method div_op

/-- `->mod`. -/
def mod_method : ArrowMethod := infix_math_method rem_op

/-- `first_method`: element 0 of an array with the tail applied (no value and
no error on an empty array); pass-through with tail for non-arrays; any
argument list is an arity error. -/
def first_method : ArrowMethod := fun method_name method_args data vars input_path tail errors =>
  match method_args with
  | some _ =>
    .ok (none, insertError errors
      ⟨"Method ->" ++ method_name ++ " does not take any arguments", input_path⟩)
  | none =>
    match data with
    | .array array =>
      match array.head? with
      | some first => .ok (tail.apply_to_path first vars input_path errors)
      | none => .ok (none, errors)
    | _ => .ok (tail.apply_to_path data vars input_path errors)

/-- `last_method`: the last element of an array with the tail applied (no
value and no error on an empty array); pass-through with tail for
non-arrays; any argument list is an arity error. -/
def last_method : ArrowMethod := fun method_name method_args data vars input_path tail errors =>
  match method_args with
  | some _ =>
    .ok (none, insertError errors
      ⟨"Method ->" ++ method_name ++ " does not take any arguments", input_path⟩)
  | none =>
    match data with
    | .array array =>
      match array.getLast? with
      | some last => .ok (tail.apply_to_path last vars input_path errors)
      | none => .ok (none, errors)
    | _ => .ok (tail.apply_to_path data vars input_path errors)

/-- The UTF-8 byte length of a string (`str::len`). -/
def utf8Len (s : List Char) : Nat := (s.map Char.utf8Size).sum

/-- `slice`'s input length: element count for arrays, byte length for
strings, `none` (a type error) otherwise. -/
def sliceLength : JSON → Option Int
  | .array array => some array.length
  | .string s => some (utf8Len s)
  | _ => none

/-- Drop the prefix of a string occupying exactly `n` bytes; panics (as
Rust's `str` indexing does) if `n` overruns the string or falls inside a
multi-byte character. -/
def strDropBytes : List Char → Nat → PanicOr (List Char)
  | s, n =>
    if n = 0 then .ok s
    else
      match s with
      | [] => .panicked
      | c :: cs => if c.utf8Size ≤ n then strDropBytes cs (n - c.utf8Size) else .panicked

/-- Take the prefix of a string occupying exactly `n` bytes; panics if `n`
overruns the string or falls inside a multi-byte character. -/
def strTakeBytes : List Char → Nat → PanicOr (List Char)
  | s, n =>
    if n = 0 then .ok []
    else
      match s with
      | [] => .panicked
      | c :: cs =>
        if c.utf8Size ≤ n then (strTakeBytes cs (n - c.utf8Size)).map (c :: ·) else .panicked

/-- Rust `&s[start..end]` on a `str`, with byte indices: panics unless
`start ≤ end`, both indices are within the byte length, and both fall on
character boundaries. -/
def strIndexRange (s : List Char) (start stop : Nat) : PanicOr (List Char) :=
  if start ≤ stop then (strDropBytes s start).bind (fun t => strTakeBytes t (stop - start))
  else .panicked

/-- Rust release-profile `usize` subtraction `a - b`: two's-complement
wrapping (the debug profile would panic when `b > a`). -/
def wrapSubUsize (a b : Nat) : Nat := (2 ^ 64 + a - b) % 2 ^ 64

/-- `slice_method`: on arrays and strings, evaluate up to two numeric bounds
against the data (each defaulting when absent or non-numeric: `start` to 0,
`end` to the length), clamp each into `[0, length]`, and take the
`[start, end)` sub-array/substring, tail applied.  The subtraction
`end - start` is `usize` arithmetic and the string range uses byte indexing,
both faithfully modelled (reversed ranges wrap / panic).  With no
parentheses at all the data is cloned and returned without the tail. -/
def slice_method : ArrowMethod := fun method_name method_args data vars input_path tail errors =>
  match sliceLength data with
  | none =>
    .ok (none, insertError errors
      ⟨"Method ->" ++ method_name ++ " requires an array or string input", input_path⟩)
  | some length =>
    match method_args with
    | some ⟨args⟩ =>
      let s0 := match args.head? with
        | some arg => arg.apply_to_path data vars input_path errors
        | none => (none, errors)
      let start : Nat := (min (max ((s0.1.bind JSON.asI64).getD 0) 0) length).toNat
      let e0 := match args[1]? with
        | some arg => arg.apply_to_path data vars input_path s0.2
        | none => (none, s0.2)
      let stop : Nat := (min (max ((e0.1.bind JSON.asI64).getD length) 0) length).toNat
      let errors := e0.2
      match data with
      | .array array =>
        let value : JSON :=
          if 0 < wrapSubUsize stop start then
            .array ((array.drop start).take (wrapSubUsize stop start))
          else .array []
        .ok (tail.apply_to_path value vars input_path errors)
      | .string s =>
        if 0 < wrapSubUsize stop start then
          match strIndexRange s start stop with
          | .ok sub => .ok (tail.apply_to_path (.string sub) vars input_path errors)
          | .panicked => .panicked
        else .ok (tail.apply_to_path (.string []) vars input_path errors)
      | _ => .panicked
    | none => .ok (some data, errors)

/-- `is_truthy`: booleans as themselves; numbers are truthy unless exactly
zero; `null` is falsy; strings are truthy unless empty; arrays and objects
are always truthy. -/
def is_truthy : JSON → Bool
  | .boolean b => b
  | .number n => decide (n.asF64 ≠ 0)
  | .null => false
  | .string s => !s.isEmpty
  | .object _ => true
  | .array _ => true

/-- `not_method`: the boolean negation of the data's truthiness, tail
applied; any argument list is an arity error. -/
def not_method : ArrowMethod := fun method_name method_args data vars input_path tail errors =>
  match method_args with
  | some _ =>
    .ok (none, insertError errors
      ⟨"Method ->" ++ method_name ++ " does not take any arguments", input_path⟩)
  | none =>
    .ok (tail.apply_to_path (.boolean (!is_truthy data)) vars input_path errors)

/-- The loop of `or_method`: starting from the running result, stop as soon
as it is true; otherwise evaluate the next argument and continue with its
truthiness (an argument that yields no value counts as false). -/
def orLoop (data : JSON) (vars : VarsWithPathsMap) (input_path : InputPath) :
    List JSLiteral → Bool → List ApplyToError → Bool × List ApplyToError
  | [], result, errors => (result, errors)
  | arg :: rest, result, errors =>
    if result then (result, errors)
    else
      match arg.apply_to_path data vars input_path errors with
      | (some value, errors) => orLoop data vars input_path rest (is_truthy value) errors
      | (none, errors) => orLoop data vars input_path rest false errors

/-- `or_method`: short-circuit OR starting from the data's truthiness, tail
applied to the final boolean; an absent argument list is an arity error. -/
def or_method : ArrowMethod := fun method_name method_args data vars input_path tail errors =>
  match method_args with
  | some ⟨args⟩ =>
    let (result, errors) := orLoop data vars input_path args (is_truthy data) errors
    .ok (tail.apply_to_path (.boolean result) vars input_path errors)
  | none =>
    .ok (none, insertError errors
      ⟨"Method ->" ++ method_name ++ " requires arguments", input_path⟩)

/-- The loop of `and_method`: stop as soon as the running result is false;
otherwise evaluate the next argument and continue with its truthiness (an
argument that yields no value counts as false). -/
def andLoop (data : JSON) (vars : VarsWithPathsMap) (input_path : InputPath) :
    List JSLiteral → Bool → List ApplyToError → Bool × List ApplyToError
  | [], result, errors => (result, errors)
  | arg :: rest, result, errors =>
    if !result then (result, errors)
    else
      match arg.apply_to_path data vars input_path errors with
      | (some value, errors) => andLoop data vars input_path rest (is_truthy value) errors
      | (none, errors) => andLoop data vars input_path rest false errors

/-- `and_method`: short-circuit AND starting from the data's truthiness, tail
applied to the final boolean; an absent argument list is an arity error. -/
def and_method : ArrowMethod := fun method_name method_args data vars input_path tail errors =>
  match method_args with
  | some ⟨args⟩ =>
    let (result, errors) := andLoop data vars input_path args (is_truthy data) errors
    .ok (tail.apply_to_path (.boolean result) vars input_path errors)
  | none =>
    .ok (none, insertError errors
      ⟨"Method ->" ++ method_name ++ " requires arguments", input_path⟩)

/-- The `ARROW_METHODS` registry: the name-to-implementation map, in its
insertion order (`matchIf` and `match_if` alias one implementation). -/
def ARROW_METHODS : List (String × ArrowMethod) :=
  [("echo", echo_method), ("typeof", typeof_method), ("map", map_method),
   ("eq", eq_method), ("match", match_method), ("matchIf", match_if_method),
   ("match_if", match_if_method), ("add", add_method), ("sub", sub_method),
   ("mul", mul_method), ("div", div_method), ("mod", mod_method),
   ("first", first_method), ("last", last_method), ("slice", slice_method),
   ("not", not_method), ("or", or_method), ("and", and_method)]

/-- A constant literal: an argument expression that always yields the given
value (e.g. a parsed number or string literal). -/
def litVal (v : JSON) : JSLiteral :=
  .expr fun _ _ _ errors => (some v, errors)

/-- An integer literal argument. -/
def litI (n : Int) : JSLiteral := litVal (.number (Number.fromI64 n))

/-- A double literal argument. -/
def litF (q : Rat) : JSLiteral := litVal (.number (.float q))

/-- The `@` variable: an argument expression that yields the data it is
evaluated against. -/
def atVar : JSLiteral :=
  .expr fun data _ _ errors => (some data, errors)

/-- A failing argument expression that records one error at its input path
before yielding no value (the discipline §4.4 requires of sub-evaluators). -/
def failLit (msg : String) : JSLiteral :=
  .expr fun _ _ input_path errors => (none, insertError errors ⟨msg, input_path⟩)

/-- The empty continuation: an exhausted `PathList` returns the value it is
applied to. -/
def idTail : PathList :=
  ⟨fun v _ _ errors => (some v, errors)⟩

/-- A constant continuation, used to observe whether a method applies its
tail. -/
def constTail (v : JSON) : PathList :=
  ⟨fun _ _ _ errors => (some v, errors)⟩

/-- A failing continuation that records one error at its input path before
yielding no value. -/
def failTail (msg : String) : PathList :=
  ⟨fun _ _ input_path errors => (none, insertError errors ⟨msg, input_path⟩)⟩

/-- `q` extends `p` as an input path: `q` is `p` followed by further
segments.  This is the sense in which an error is attributable to the input
path of the invocation that produced it. -/
def PathExtends (p q : List JSON) : Prop := ∃ rest, q = p ++ rest

/-- Every path extends itself. -/
theorem PathExtends.refl (p : List JSON) : PathExtends p p := ⟨[], by simp⟩

/-- Number equality is sound: `beq`-equal numbers are equal. -/
theorem number_beq_sound : ∀ {a b : Number}, Number.beq a b = true → a = b := by
  intro a b h
  cases a <;> cases b <;> first
    | exact Bool.noConfusion h
    | exact congrArg _ (eq_of_beq h)

/-- Elementwise array equality is sound, given soundness for the elements. -/
theorem JSON.beqList_sound_of (xs ys : List JSON)
    (hx : ∀ x ∈ xs, ∀ b : JSON, JSON.beq x b = true → x = b)
    (h : JSON.beqList xs ys = true) : xs = ys := by
  induction xs generalizing ys with
  | nil =>
    cases ys with
    | nil => rfl
    | cons y ys => exact Bool.noConfusion h
  | cons x xs ih =>
    cases ys with
    | nil => exact Bool.noConfusion h
    | cons y ys =>
      simp only [JSON.beqList, Bool.and_eq_true] at h
      have h1 := hx x (by simp) y h.1
      have h2 := ih ys (fun z hz b hb => hx z (List.mem_cons_of_mem x hz) b hb) h.2
      rw [h1, h2]

/-- Fieldwise object equality is sound, given soundness for the values. -/
theorem JSON.beqFields_sound_of (xs ys : List (String × JSON))
    (hx : ∀ kv ∈ xs, ∀ b : JSON, JSON.beq kv.2 b = true → kv.2 = b)
    (h : JSON.beqFields xs ys = true) : xs = ys := by
  induction xs generalizing ys with
  | nil =>
    cases ys with
    | nil => rfl
    | cons y ys => exact Bool.noConfusion h
  | cons x xs ih =>
    cases ys with
    | nil => exact Bool.noConfusion h
    | cons y ys =>
      obtain ⟨k1, v1⟩ := x
      obtain ⟨k2, v2⟩ := y
      simp only [JSON.beqFields, Bool.and_eq_true] at h
      have hk : k1 = k2 := eq_of_beq h.1.1
      have hv : v1 = v2 := hx (k1, v1) (by simp) v2 h.1.2
      have h2 := ih ys (fun z hz b hb => hx z (List.mem_cons_of_mem (k1, v1) hz) b hb) h.2
      rw [hk, hv, h2]

/-- Deep JSON equality is sound: `beq`-equal values are equal. -/
theorem json_beq_sound : ∀ {a b : JSON}, JSON.beq a b = true → a = b := by
  have main : ∀ n (a b : JSON), sizeOf a < n → JSON.beq a b = true → a = b := by
    intro n
    induction n with
    | zero => intro a b h; omega
    | succ n ih =>
      intro a b hlt hbeq
      cases a <;> cases b <;> try exact Bool.noConfusion hbeq
      case null.null => rfl
      case boolean.boolean a b =>
        exact congrArg JSON.boolean (eq_of_beq hbeq)
      case number.number a b =>
        exact congrArg JSON.number (number_beq_sound hbeq)
      case string.string a b =>
        exact congrArg JSON.string (eq_of_beq hbeq)
      case array.array xs ys =>
        refine congrArg JSON.array (JSON.beqList_sound_of xs ys (fun x hx b hb => ?_) hbeq)
        refine ih x b ?_ hb
        have hmem := List.sizeOf_lt_of_mem hx
        have : sizeOf (JSON.array xs) = 1 + sizeOf xs := by simp
        omega
      case object.object fs gs =>
        refine congrArg JSON.object (JSON.beqFields_sound_of fs gs (fun kv hkv b hb => ?_) hbeq)
        refine ih kv.2 b ?_ hb
        have hmem := List.sizeOf_lt_of_mem hkv
        obtain ⟨k, v⟩ := kv
        have : sizeOf ((k, v) : String × JSON) = 1 + sizeOf k + sizeOf v := by simp
        have : sizeOf (JSON.object fs) = 1 + sizeOf fs := by simp
        simp only at hb ⊢
        omega
  intro a b h
  exact main (sizeOf a + 1) a b (by omega) h

/-- Error equality is sound: `beq`-equal errors are equal. -/
theorem applyToError_beq_sound {a b : ApplyToError} (h : a.beq b = true) : a = b := by
  obtain ⟨m1, p1⟩ := a
  obtain ⟨m2, p2⟩ := b
  simp only [ApplyToError.beq, Bool.and_eq_true] at h
  have hm : m1 = m2 := eq_of_beq h.1
  have hp : p1 = p2 := JSON.beqList_sound_of p1 p2 (fun x _ b hb => json_beq_sound hb) h.2
  rw [hm, hp]

/-- After inserting an error, an equal error is present in the accumulator
(whether it was newly appended or already there). -/
theorem mem_insertError (errors : List ApplyToError) (e : ApplyToError) :
    ∃ x ∈ insertError errors e, x = e := by
  unfold insertError
  split
  case isTrue h =>
    obtain ⟨x, hx, hbeq⟩ := List.any_eq_true.mp h
    exact ⟨x, hx, applyToError_beq_sound hbeq⟩
  case isFalse h =>
    exact ⟨e, by simp, rfl⟩

/-- Inserting an error whose path is the current input path leaves an error
attributable to that path in the accumulator. -/
theorem insertError_attributable (errors : List ApplyToError) (msg : String) (p : List JSON) :
    ∃ err ∈ insertError errors ⟨msg, p⟩, PathExtends p err.path := by
  obtain ⟨x, hx, hxe⟩ := mem_insertError errors ⟨msg, p⟩
  exact ⟨x, hx, by rw [hxe]; exact PathExtends.refl p⟩

/-- C1: the claim says that an argument making the arithmetic operation
unrepresentable — in particular division or modulo by zero — leads to the
error "Method ->{name} failed on argument {n}" with no value and no panic.
The code satisfies this only on the floating path (third conjunct:
`2.5->div(0.0)` inserts exactly that error at the current path and yields no
value); on the integer path, `6->div(0)` and `6->mod(0)` evaluate Rust's
`6_i64 / 0_i64` / `6_i64 % 0_i64`, which panic and unwind (first two
conjuncts), inserting no error at all. -/
theorem c1_integer_div_mod_by_zero_panics :
    div_method "div" (some ⟨[litI 0]⟩) (.number (.posInt 6)) [] [] idTail [] = .panicked ∧
    mod_method "mod" (some ⟨[litI 0]⟩) (.number (.posInt 6)) [] [] idTail [] = .panicked ∧
    div_method "div" (some ⟨[litF 0]⟩) (.number (.float (mkRat 5 2))) [] [] idTail [] =
      .ok (none, [⟨"Method ->div failed on argument 0.0", []⟩]) :=
  ⟨rfl, rfl, rfl⟩

/-- C2: the claim says both slice bounds are clamped into `[0, length]` and
that an empty range (in particular `start > end`) yields an empty
array/string with no error and no panic.  The code computes `end - start` in
`usize`: for `"abc"->slice(2, 1)` the wrapped difference is positive and the
string range `2..1` panics (first conjunct); for `[1, 2, 3]->slice(2, 1)`
the release-profile wrap makes `take` keep the whole suffix, returning
`[3]` instead of `[]` (second conjunct).  Byte indexing also panics inside a
multi-byte character: `"é"->slice(0, 1)` (third conjunct).  The in-range
behavior the claim describes does hold: `"hello"->slice(1, 3) == "el"` and
`[1]->slice(1, 3) == []` (last conjuncts). -/
theorem c2_slice_reversed_range_panics :
    slice_method "slice" (some ⟨[litI 2, litI 1]⟩) (.string ['a', 'b', 'c']) [] [] idTail []
      = .panicked ∧
    slice_method "slice" (some ⟨[litI 2, litI 1]⟩)
      (.array [.number (.posInt 1), .number (.posInt 2), .number (.posInt 3)]) [] [] idTail []
      = .ok (some (.array [.number (.posInt 3)]), []) ∧
    slice_method "slice" (some ⟨[litI 0, litI 1]⟩) (.string ['é']) [] [] idTail []
      = .panicked ∧
    slice_method "slice" (some ⟨[litI 1, litI 3]⟩) (.string ['h', 'e', 'l', 'l', 'o']) [] [] idTail []
      = .ok (some (.string ['e', 'l']), []) ∧
    slice_method "slice" (some ⟨[litI 1, litI 3]⟩) (.array [.number (.posInt 1)]) [] [] idTail []
      = .ok (some (.array []), []) :=
  ⟨rfl, rfl, rfl, rfl, rfl⟩

/-- C3 counterexample: the claim says `slice` invoked with no arguments
returns a clone of the data with the tail applied to that clone.  With no
parentheses at all (`method_args = none`) and a tail mapping every value to
`42`, the code returns the clone `[null]` itself — the tail is never
applied (its application would have produced `42`). -/
theorem c3_counterexample :
    slice_method "slice" none (.array [.null]) [] [] (constTail (.number (.posInt 42))) [] =
      .ok (some (.array [.null]), []) ∧
    (constTail (.number (.posInt 42))).apply_to_path (.array [.null]) [] [] [] =
      (some (.number (.posInt 42)), []) ∧
    (.ok (some (.array [.null]), []) : PanicOr (Option JSON × List ApplyToError)) ≠
      .ok (some (.number (.posInt 42)), []) := by
  refine ⟨rfl, rfl, fun h => ?_⟩
  injection h with h1
  injection h1 with h2 h3
  injection h2 with h4
  exact JSON.noConfusion h4

/-- Byte length of a cons cell: the head's UTF-8 width plus the rest. -/
theorem utf8Len_cons (c : Char) (s : List Char) : utf8Len (c :: s) = c.utf8Size + utf8Len s := by
  simp [utf8Len]

/-- Only the empty string has byte length zero. -/
theorem utf8Len_eq_zero {s : List Char} (h : utf8Len s = 0) : s = [] := by
  cases s with
  | nil => rfl
  | cons c cs =>
    rw [utf8Len_cons] at h
    have := Char.utf8Size_pos c
    omega

/-- Unfolding `strTakeBytes` on a cons cell with a nonzero byte count. -/
theorem strTakeBytes_cons (c : Char) (cs : List Char) (n : Nat) (hn : n ≠ 0) :
    strTakeBytes (c :: cs) n =
      if c.utf8Size ≤ n then (strTakeBytes cs (n - c.utf8Size)).map (c :: ·) else .panicked := by
  rw [strTakeBytes, if_neg hn]

/-- Taking a string's full byte length returns the whole string. -/
theorem strTakeBytes_full : ∀ s : List Char, strTakeBytes s (utf8Len s) = .ok s := by
  intro s
  induction s with
  | nil => rfl
  | cons c cs ih =>
    have hpos := Char.utf8Size_pos c
    rw [utf8Len_cons, strTakeBytes_cons c cs _ (by omega), if_pos (by omega)]
    have h1 : c.utf8Size + utf8Len cs - c.utf8Size = utf8Len cs := by omega
    rw [h1, ih]
    rfl

/-- Dropping zero bytes returns the whole string. -/
theorem strDropBytes_zero (s : List Char) : strDropBytes s 0 = .ok s := by
  rw [strDropBytes.eq_def]
  simp

/-- In-range `usize` subtraction does not wrap. -/
theorem wrapSubUsize_of_le {a b : Nat} (hba : b ≤ a) (ha : a < 2 ^ 64) :
    wrapSubUsize a b = a - b := by
  unfold wrapSubUsize
  omega

/-- C3 (amended): on an array or string input, `slice` invoked with an empty
parenthesized argument list returns a copy of the data with the tail applied
to it; invoked with no parentheses at all it returns the clone of the data
itself and the tail is NOT applied. -/
theorem c3_amended (data : JSON) (length : Int) (hlen : sliceLength data = some length)
    (hsmall : length < 2 ^ 64) (name : String) (vars : VarsWithPathsMap)
    (input_path : InputPath) (tail : PathList) (errors : List ApplyToError) :
    slice_method name none data vars input_path tail errors = .ok (some data, errors) ∧
    slice_method name (some ⟨[]⟩) data vars input_path tail errors =
      .ok (tail.apply_to_path data vars input_path errors) := by
  constructor
  · unfold slice_method
    rw [hlen]
  · unfold slice_method
    rw [hlen]
    cases data with
    | array xs =>
      have hxl : length = (xs.length : Int) := by
        simp [sliceLength] at hlen
        omega
      subst hxl
      simp only [List.head?, List.getElem?_nil, Option.none_bind, Option.getD_none]
      have h0 : (min (max (0 : Int) 0) (xs.length : Int)).toNat = 0 := by omega
      have h1 : (min (max ((xs.length : Int)) 0) (xs.length : Int)).toNat = xs.length := by omega
      rw [h0, h1]
      rw [wrapSubUsize_of_le (Nat.zero_le _) (by omega)]
      by_cases hx : 0 < xs.length
      · rw [if_pos (by omega)]
        simp [List.drop_zero, List.take_length]
      · have : xs = [] := by
          cases xs with
          | nil => rfl
          | cons a as => simp at hx
        subst this
        simp
    | string s =>
      have hsl : length = (utf8Len s : Int) := by
        simp [sliceLength] at hlen
        omega
      subst hsl
      simp only [List.head?, List.getElem?_nil, Option.none_bind, Option.getD_none]
      have h0 : (min (max (0 : Int) 0) ((utf8Len s : Int))).toNat = 0 := by omega
      have h1 : (min (max ((utf8Len s : Int)) 0) ((utf8Len s : Int))).toNat = utf8Len s := by omega
      rw [h0, h1]
      rw [wrapSubUsize_of_le (Nat.zero_le _) (by omega)]
      by_cases hx : 0 < utf8Len s
      · rw [if_pos (show 0 < utf8Len s - 0 by omega)]
        have hidx : strIndexRange s 0 (utf8Len s) = .ok s := by
          unfold strIndexRange
          rw [if_pos (Nat.zero_le _), strDropBytes_zero]
          simp only [PanicOr.bind, Nat.sub_zero]
          exact strTakeBytes_full s
        rw [hidx]
      · have h2 : utf8Len s = 0 := by omega
        have h3 := utf8Len_eq_zero h2
        subst h3
        rw [if_neg (by simp [utf8Len])]
    | null => simp [sliceLength] at hlen
    | boolean b => simp [sliceLength] at hlen
    | number n => simp [sliceLength] at hlen
    | object fs => simp [sliceLength] at hlen

/-- Witness for the amended C3 at the concrete input `[null]` with a tail
mapping everything to `42`: the no-parentheses form keeps `[null]` and drops
the tail, the empty-parentheses form hands the copy to the tail (producing
`42`). -/
theorem c3_amended_witness :
    slice_method "slice" none (.array [.null]) [] [] (constTail (.number (.posInt 42))) [] =
      .ok (some (.array [.null]), []) ∧
    slice_method "slice" (some ⟨[]⟩) (.array [.null]) [] [] (constTail (.number (.posInt 42))) [] =
      .ok ((constTail (.number (.posInt 42))).apply_to_path (.array [.null]) [] [] []) :=
  c3_amended (.array [.null]) 1 rfl (by norm_num) "slice" [] []
    (constTail (.number (.posInt 42))) []

/-- `n` is representable as an `i64`. -/
def inI64 (n : Int) : Prop := i64Min ≤ n ∧ n ≤ i64Max

instance (n : Int) : Decidable (inI64 n) := by unfold inI64; infer_instance

theorem isF64_fromI64 (n : Int) : (Number.fromI64 n).isF64 = false := by
  unfold Number.fromI64
  split <;> rfl

theorem asI64_fromI64 {n : Int} (h : inI64 n) : (Number.fromI64 n).asI64 = some n := by
  unfold Number.fromI64
  split
  · rfl
  · simp only [Number.asI64]
    rw [if_pos]
    · congr 1
      omega
    · unfold inI64 i64Max at *
      omega

theorem wrapI64_eq_self {n : Int} (h : inI64 n) : wrapI64 n = n := by
  unfold wrapI64
  unfold inI64 i64Min i64Max at h
  have e1 : (2 : Int) ^ 63 = 9223372036854775808 := by norm_num
  have e2 : (2 : Int) ^ 64 = 18446744073709551616 := by norm_num
  simp only [e1, e2] at h ⊢
  omega

theorem infix_math_op_int (intOp : Int → Int → PanicOr Int) (fOp : Rat → Rat → Option Rat)
    {a b : Int} (ha : inI64 a) (hb : inI64 b) :
    infix_math_op intOp fOp (Number.fromI64 a) (Number.fromI64 b) =
      (intOp a b).map (fun r => some (Number.fromI64 r)) := by
  unfold infix_math_op
  rw [isF64_fromI64, isF64_fromI64]
  simp only [Bool.or_self, Bool.false_eq_true, if_false]
  rw [asI64_fromI64 ha, asI64_fromI64 hb]

theorem add_op_int {a b : Int} (ha : inI64 a) (hb : inI64 b) (hab : inI64 (a + b)) :
    add_op (Number.fromI64 a) (Number.fromI64 b) = .ok (some (Number.fromI64 (a + b))) := by
  unfold add_op
  rw [infix_math_op_int _ _ ha hb]
  simp [PanicOr.map, wrapI64_eq_self hab]

theorem sub_op_int {a b : Int} (ha : inI64 a) (hb : inI64 b) (hab : inI64 (a - b)) :
    sub_op (Number.fromI64 a) (Number.fromI64 b) = .ok (some (Number.fromI64 (a - b))) := by
  unfold sub_op
  rw [infix_math_op_int _ _ ha hb]
  simp [PanicOr.map, wrapI64_eq_self hab]

theorem litI_apply (n : Int) (data : JSON) (vars : VarsWithPathsMap) (p : InputPath)
    (errors : List ApplyToError) :
    (litI n).apply_to_path data vars p errors = (some (.number (Number.fromI64 n)), errors) := rfl

theorem arithLoop_sub_fold (name : String) (data : JSON) (vars : VarsWithPathsMap)
    (p : InputPath) :
    ∀ (ns : List Int) (x : Int) (errors : List ApplyToError),
    (∀ k, k ≤ ns.length → inI64 ((ns.take k).foldl (· - ·) x)) →
    (∀ n ∈ ns, inI64 n) →
    arithLoop name sub_op data vars p (ns.map litI) (Number.fromI64 x) errors =
      .ok (some (.number (Number.fromI64 (ns.foldl (· - ·) x))), errors) := by
  intro ns
  induction ns with
  | nil => intro x errors _ _; rfl
  | cons n rest ih =>
    intro x errors hok hmem
    have hx : inI64 x := by
      have := hok 0 (by omega)
      simpa using this
    have hn : inI64 n := hmem n (by simp)
    have hxn : inI64 (x - n) := by
      have := hok 1 (by simp)
      simpa using this
    simp only [List.map_cons, arithLoop, litI_apply, sub_op_int hx hn hxn]
    rw [ih (x - n) errors ?_ (fun m hm => hmem m (by simp [hm]))]
    · simp
    · intro k hk
      have := hok (k + 1) (by simp; omega)
      simpa using this

/-- C6 counterexample: the claim's example `3->add(1,2,3,5,8) == 20` is
false on the code: folding 3 through the additions gives 22 (the code's own
test computes 20 from data `1`, not `3`). -/
theorem c6_counterexample :
    add_method "add" (some ⟨[litI 1, litI 2, litI 3, litI 5, litI 8]⟩) (.number (.posInt 3))
      [] [] idTail [] = .ok (some (.number (.posInt 22)), []) ∧
    (.ok (some (.number (.posInt 22)), []) : PanicOr (Option JSON × List ApplyToError)) ≠
      .ok (some (.number (.posInt 20)), []) := by
  refine ⟨rfl, fun h => ?_⟩
  injection h with h1
  injection h1 with h2 h3
  injection h2 with h4
  injection h4 with h5
  injection h5 with h6
  exact absurd h6 (by decide)

/-- C6 (amended): arithmetic methods fold left-to-right from the data's
number in argument order (first conjunct: for in-range integers,
`x->sub(n1, ..., nk)` is the left fold `(..(x - n1) - ..) - nk`, so
`x->sub(a,b) = (x-a)-b`), with float promotion, and the corrected examples
hold: `3->add(1,2,3,5,8) == 22` (the spec's stated data/result pair is met
by `1->add(1,2,3,5,8) == 20`, as in the code's tests); `2->sub(1) == 1`;
`2.5->sub(10) == -7.5`; and `2->add(1.5) == 3.5` — one floating operand
promotes the whole fold to floating point. -/
theorem c6_amended (x : Int) (ns : List Int)
    (hok : ∀ k, k ≤ ns.length → inI64 ((ns.take k).foldl (· - ·) x))
    (hmem : ∀ n ∈ ns, inI64 n)
    (name : String) (vars : VarsWithPathsMap) (input_path : InputPath)
    (errors : List ApplyToError) :
    sub_method name (some ⟨ns.map litI⟩) (.number (Number.fromI64 x)) vars input_path
      idTail errors = .ok (some (.number (Number.fromI64 (ns.foldl (· - ·) x))), errors) ∧
    add_method "add" (some ⟨[litI 1, litI 2, litI 3, litI 5, litI 8]⟩) (.number (.posInt 3))
      [] [] idTail [] = .ok (some (.number (.posInt 22)), []) ∧
    add_method "add" (some ⟨[litI 1, litI 2, litI 3, litI 5, litI 8]⟩) (.number (.posInt 1))
      [] [] idTail [] = .ok (some (.number (.posInt 20)), []) ∧
    sub_method "sub" (some ⟨[litI 1]⟩) (.number (.posInt 2)) [] [] idTail [] =
      .ok (some (.number (.posInt 1)), []) ∧
    sub_method "sub" (some ⟨[litI 10]⟩) (.number (.float (mkRat 5 2))) [] [] idTail [] =
      .ok (some (.number (.float (mkRat (-15) 2))), []) ∧
    add_method "add" (some ⟨[litF (mkRat 3 2)]⟩) (.number (.posInt 2)) [] [] idTail [] =
      .ok (some (.number (.float (mkRat 7 2))), []) := by
  refine ⟨?_, rfl, rfl, rfl, rfl, rfl⟩
  simp only [sub_method, infix_math_method, arithmetic_method,
    arithLoop_sub_fold name (.number (Number.fromI64 x)) vars input_path ns x errors hok hmem]
  rfl

/-- Witness for the amended C6 at `2->sub(1) == 1` through the general fold
conjunct, hypotheses discharged by evaluation. -/
theorem c6_amended_witness :
    sub_method "sub" (some ⟨[litI 1]⟩) (.number (Number.fromI64 2)) [] [] idTail [] =
      .ok (some (.number (Number.fromI64 1)), []) :=
  (c6_amended 2 [1] (by decide) (by decide) "sub" [] [] []).1

theorem last_method_array (name : String) (vars : VarsWithPathsMap) (input_path : InputPath)
    (tail : PathList) (errors : List ApplyToError) (ys : List JSON) :
    last_method name none (.array ys) vars input_path tail errors =
      match ys.getLast? with
      | some last => .ok (tail.apply_to_path last vars input_path errors)
      | none => .ok (none, errors) := rfl

/-- C7: `first` (resp. `last`) with no arguments returns element 0 (resp.
the last element) of an array with the tail applied; on an empty array both
yield no value and leave the error accumulator untouched; on non-array data
both apply the tail to the data unchanged; on a one-element array both
yield the sole element. -/
theorem c7_first_last (name : String) (vars : VarsWithPathsMap) (input_path : InputPath)
    (tail : PathList) (errors : List ApplyToError) :
    (first_method name none (.array []) vars input_path tail errors = .ok (none, errors)) ∧
    (last_method name none (.array []) vars input_path tail errors = .ok (none, errors)) ∧
    (∀ (x : JSON) (xs : List JSON),
      first_method name none (.array (x :: xs)) vars input_path tail errors =
        .ok (tail.apply_to_path x vars input_path errors)) ∧
    (∀ (x : JSON) (xs : List JSON),
      last_method name none (.array (xs ++ [x])) vars input_path tail errors =
        .ok (tail.apply_to_path x vars input_path errors)) ∧
    (∀ data : JSON, data.isArray = false →
      first_method name none data vars input_path tail errors =
        .ok (tail.apply_to_path data vars input_path errors) ∧
      last_method name none data vars input_path tail errors =
        .ok (tail.apply_to_path data vars input_path errors)) ∧
    (∀ x : JSON,
      first_method name none (.array [x]) vars input_path tail errors =
        .ok (tail.apply_to_path x vars input_path errors) ∧
      last_method name none (.array [x]) vars input_path tail errors =
        .ok (tail.apply_to_path x vars input_path errors)) := by
  refine ⟨rfl, rfl, fun x xs => rfl, fun x xs => ?_, fun data hdata => ?_, fun x => ⟨rfl, ?_⟩⟩
  · rw [last_method_array, List.getLast?_concat]
  · cases data <;> first
      | exact Bool.noConfusion hdata
      | exact ⟨rfl, rfl⟩
  · have h0 : ([x] : List JSON) = [] ++ [x] := by simp
    rw [h0, last_method_array, List.getLast?_concat]

/-- Witness for C7 at the non-array input `null`: both methods pass `null`
through to the tail. -/
theorem c7_first_last_witness :
    first_method "first" none .null [] [] idTail [] =
      .ok (idTail.apply_to_path .null [] [] []) ∧
    last_method "last" none .null [] [] idTail [] =
      .ok (idTail.apply_to_path .null [] [] []) :=
  ⟨((c7_first_last "first" [] [] idTail []).2.2.2.2.1 .null rfl).1,
   ((c7_first_last "last" [] [] idTail []).2.2.2.2.1 .null rfl).2⟩

/-- C9: applying `not` twice yields a boolean whose truthiness equals the
truthiness of the input (first two conjuncts chain the two invocations),
where truthiness follows the code's rule: booleans are themselves, numbers
are falsy only at exactly zero, `null` and the empty string are falsy, and
every array or object (however empty) is truthy. -/
theorem c9_not_involution (vars : VarsWithPathsMap) (input_path : InputPath)
    (errors : List ApplyToError) :
    (∀ x : JSON, not_method "not" none x vars input_path idTail errors =
        .ok (some (.boolean (!is_truthy x)), errors)) ∧
    (∀ x : JSON, not_method "not" none (.boolean (!is_truthy x)) vars input_path idTail errors =
        .ok (some (.boolean (is_truthy x)), errors)) ∧
    (∀ b, is_truthy (.boolean b) = b) ∧
    (∀ n, is_truthy (.number n) = decide (n.asF64 ≠ 0)) ∧
    is_truthy .null = false ∧
    (∀ s, is_truthy (.string s) = !s.isEmpty) ∧
    (∀ xs, is_truthy (.array xs) = true) ∧
    (∀ fields, is_truthy (.object fields) = true) := by
  refine ⟨fun x => rfl, fun x => ?_, fun b => rfl, fun n => rfl, rfl, fun s => rfl,
    fun xs => rfl, fun fields => rfl⟩
  have h1 : not_method "not" none (JSON.boolean (!is_truthy x)) vars input_path idTail errors =
      PanicOr.ok (some (JSON.boolean (!(!is_truthy x))), errors) := rfl
  rw [h1, Bool.not_not]

/-- C10: inside an arithmetic fold every argument expression is evaluated
against the original input data and path, not against the running result:
with `@` denoting the current data, `x->add(@, @)` yields `3x` (each `@`
contributes `x`); were arguments evaluated against the running fold value it
would yield `4x`. -/
theorem c10_args_see_original_data (x : Int) (hlo : -(2 ^ 61) ≤ x) (hhi : x ≤ 2 ^ 61)
    (vars : VarsWithPathsMap) (input_path : InputPath) (errors : List ApplyToError) :
    add_method "add" (some ⟨[atVar, atVar]⟩) (.number (Number.fromI64 x)) vars input_path
      idTail errors = .ok (some (.number (Number.fromI64 (3 * x))), errors) := by
  have hx : inI64 x := by unfold inI64 i64Min i64Max; constructor <;> nlinarith
  have h2x : inI64 (x + x) := by unfold inI64 i64Min i64Max at *; constructor <;> nlinarith
  have h3x : inI64 ((x + x) + x) := by unfold inI64 i64Min i64Max at *; constructor <;> nlinarith
  have hat : atVar.apply_to_path (.number (Number.fromI64 x)) vars input_path errors =
      (some (.number (Number.fromI64 x)), errors) := rfl
  simp only [add_method, infix_math_method, arithmetic_method, arithLoop, hat,
    add_op_int hx hx h2x, add_op_int h2x hx h3x]
  have h3 : (x + x) + x = 3 * x := by ring
  rw [h3]
  rfl

/-- Witness for C10 at `x = 5`: `5->add(@, @) == 15`. -/
theorem c10_witness :
    add_method "add" (some ⟨[atVar, atVar]⟩) (.number (Number.fromI64 5)) [] []
      idTail [] = .ok (some (.number (Number.fromI64 15)), []) :=
  c10_args_see_original_data 5 (by norm_num) (by norm_num) [] [] []

/-- C8: `or`/`and` start from the truthiness of the data and evaluate the
arguments left to right (first conjunct: the method is the loop's result
handed to the tail), stopping at the first decisive running value — once the
running result is decisive (true for `or`, false for `and`), the remaining
arguments are not evaluated and the accumulator is returned untouched, so no
error from a skipped argument can appear (second conjunct); an argument that
fails to evaluate contributes `false` and the scan continues rather than
erroring (third conjunct); an argument that evaluates contributes its
truthiness (fourth conjunct). -/
theorem c8_or_and_short_circuit (data : JSON) (vars : VarsWithPathsMap)
    (input_path : InputPath) (tail : PathList) :
    (∀ (name : String) (args : List JSLiteral) (errors : List ApplyToError),
      or_method name (some ⟨args⟩) data vars input_path tail errors =
        .ok (tail.apply_to_path
          (.boolean (orLoop data vars input_path args (is_truthy data) errors).1)
          vars input_path (orLoop data vars input_path args (is_truthy data) errors).2) ∧
      and_method name (some ⟨args⟩) data vars input_path tail errors =
        .ok (tail.apply_to_path
          (.boolean (andLoop data vars input_path args (is_truthy data) errors).1)
          vars input_path (andLoop data vars input_path args (is_truthy data) errors).2)) ∧
    (∀ (args : List JSLiteral) (errors : List ApplyToError),
      orLoop data vars input_path args true errors = (true, errors) ∧
      andLoop data vars input_path args false errors = (false, errors)) ∧
    (∀ (arg : JSLiteral) (rest : List JSLiteral) (errors errors2 : List ApplyToError),
      arg.apply_to_path data vars input_path errors = (none, errors2) →
      orLoop data vars input_path (arg :: rest) false errors =
        orLoop data vars input_path rest false errors2 ∧
      andLoop data vars input_path (arg :: rest) true errors =
        andLoop data vars input_path rest false errors2) ∧
    (∀ (arg : JSLiteral) (rest : List JSLiteral) (v : JSON) (errors errors2 : List ApplyToError),
      arg.apply_to_path data vars input_path errors = (some v, errors2) →
      orLoop data vars input_path (arg :: rest) false errors =
        orLoop data vars input_path rest (is_truthy v) errors2 ∧
      andLoop data vars input_path (arg :: rest) true errors =
        andLoop data vars input_path rest (is_truthy v) errors2) := by
  refine ⟨fun name args errors => ?_, fun args errors => ?_,
    fun arg rest errors errors2 heval => ?_, fun arg rest v errors errors2 heval => ?_⟩
  · constructor
    · rcases h : orLoop data vars input_path args (is_truthy data) errors with ⟨r, e2⟩
      simp only [or_method, h]
    · rcases h : andLoop data vars input_path args (is_truthy data) errors with ⟨r, e2⟩
      simp only [and_method, h]
  · constructor
    · cases args <;> rfl
    · cases args <;> rfl
  · constructor
    · simp only [orLoop, heval]
      rfl
    · simp only [andLoop, heval]
      rfl
  · constructor
    · simp only [orLoop, heval]
      rfl
    · simp only [andLoop, heval]
      rfl

/-- Witness for C8 on truthy data `true`: `or` returns `true` without
touching its argument, and the loop skips even an always-failing argument,
leaving the accumulator exactly as it was. -/
theorem c8_witness :
    or_method "or" (some ⟨[litVal .null]⟩) (.boolean true) [] [] idTail
      [⟨"pre", []⟩] =
      .ok (idTail.apply_to_path (.boolean true) [] [] [⟨"pre", []⟩]) ∧
    orLoop (.boolean true) [] [] [failLit "skipped"] true [⟨"pre", []⟩] =
      (true, [⟨"pre", []⟩]) :=
  ⟨((c8_or_and_short_circuit (.boolean true) [] [] idTail).1 "or" [litVal .null]
      [⟨"pre", []⟩]).1,
   ((c8_or_and_short_circuit (.boolean true) [] [] idTail).2.1 [failLit "skipped"]
      [⟨"pre", []⟩]).1⟩

/-- The spec's elementwise description of `->map` over an array (stated
from the spec's words, for comparison with `map_method`): at index `i` the
argument is evaluated against the element under the path extended by `i`;
on success the tail is applied to the result under the same extended path;
any failure contributes `null`. -/
def mapSpecResult (fArg fTail : JSON → InputPath → Option JSON) (input_path : InputPath) :
    List JSON → Nat → List JSON
  | [], _ => []
  | x :: xs, i =>
    (match fArg x (input_path ++ [.number (.posInt i)]) with
     | some v => (fTail v (input_path ++ [.number (.posInt i)])).getD .null
     | none => .null) :: mapSpecResult fArg fTail input_path xs (i + 1)

/-- The spec-side description of `map` preserves the array's length. -/
theorem mapSpecResult_length (fArg fTail : JSON → InputPath → Option JSON)
    (input_path : InputPath) :
    ∀ (xs : List JSON) (i : Nat),
      (mapSpecResult fArg fTail input_path xs i).length = xs.length := by
  intro xs
  induction xs with
  | nil => intro i; rfl
  | cons x rest ih => intro i; simp [mapSpecResult, ih]

/-- The value an argument expression produces depends only on the data and
the input path, not on the error accumulator threaded through it — true of
the real evaluators, whose results never inspect previously recorded
errors.  `f` names that value function. -/
def ArgValueFn (l : JSLiteral) (vars : VarsWithPathsMap)
    (f : JSON → InputPath → Option JSON) : Prop :=
  ∀ data input_path errors, (l.apply_to_path data vars input_path errors).1 = f data input_path

/-- The value a path continuation produces depends only on the value and
the input path; `f` names that value function. -/
def TailValueFn (t : PathList) (vars : VarsWithPathsMap)
    (f : JSON → InputPath → Option JSON) : Prop :=
  ∀ v input_path errors, (t.apply_to_path v vars input_path errors).1 = f v input_path

/-- The `map` loop computes exactly the spec's elementwise description. -/
theorem mapLoop_spec (arg : JSLiteral) (tail : PathList) (vars : VarsWithPathsMap)
    (fArg fTail : JSON → InputPath → Option JSON)
    (hArg : ArgValueFn arg vars fArg) (hTail : TailValueFn tail vars fTail)
    (input_path : InputPath) :
    ∀ (xs : List JSON) (i : Nat) (errors : List ApplyToError),
    (mapLoop arg tail vars input_path xs i errors).1 =
      mapSpecResult fArg fTail input_path xs i := by
  intro xs
  induction xs with
  | nil => intro i errors; rfl
  | cons x rest ih =>
    intro i errors
    rcases h1 : arg.apply_to_path x vars (input_path ++ [.number (.posInt i)]) errors
      with ⟨vOpt, e1⟩
    have hv : vOpt = fArg x (input_path ++ [.number (.posInt i)]) := by
      have := hArg x (input_path ++ [.number (.posInt i)]) errors
      rw [h1] at this
      exact this
    cases vOpt with
    | none =>
      simp only [mapLoop, h1, mapSpecResult, ← hv]
      rcases h3 : mapLoop arg tail vars input_path rest (i + 1) e1 with ⟨out, e3⟩
      have := ih (i + 1) e1
      rw [h3] at this
      exact congrArg (List.cons JSON.null) this
    | some a =>
      rcases h2 : tail.apply_to_path a vars (input_path ++ [.number (.posInt i)]) e1
        with ⟨wOpt, e2⟩
      have hw : wOpt = fTail a (input_path ++ [.number (.posInt i)]) := by
        have := hTail a (input_path ++ [.number (.posInt i)]) e1
        rw [h2] at this
        exact this
      cases wOpt with
      | none =>
        simp only [mapLoop, h1, h2, mapSpecResult, ← hv, ← hw]
        rcases h3 : mapLoop arg tail vars input_path rest (i + 1) e2 with ⟨out, e3⟩
        have := ih (i + 1) e2
        rw [h3] at this
        exact congrArg (List.cons JSON.null) this
      | some w =>
        simp only [mapLoop, h1, h2, mapSpecResult, ← hv, ← hw]
        rcases h3 : mapLoop arg tail vars input_path rest (i + 1) e2 with ⟨out, e3⟩
        have := ih (i + 1) e2
        rw [h3] at this
        exact congrArg (List.cons w) this

/-- C4: `map` with a first argument on an array returns `Some` array of
exactly the input's length whose entry at `i` is the argument evaluated
against element `i` under the path extended by `i`, with the tail applied
under that same path, and `null` wherever the argument or tail yields no
value; on a non-array input it is the direct evaluation of the argument
against the data. -/
theorem c4_map (arg : JSLiteral) (restArgs : List JSLiteral) (tail : PathList)
    (vars : VarsWithPathsMap) (fArg fTail : JSON → InputPath → Option JSON)
    (hArg : ArgValueFn arg vars fArg) (hTail : TailValueFn tail vars fTail)
    (name : String) (input_path : InputPath) (errors : List ApplyToError) :
    (∀ xs : List JSON, ∃ errors2 : List ApplyToError,
      map_method name (some ⟨arg :: restArgs⟩) (.array xs) vars input_path tail errors =
        .ok (some (.array (mapSpecResult fArg fTail input_path xs 0)), errors2) ∧
      (mapSpecResult fArg fTail input_path xs 0).length = xs.length) ∧
    (∀ data : JSON, data.isArray = false →
      map_method name (some ⟨arg :: restArgs⟩) data vars input_path tail errors =
        .ok (arg.apply_to_path data vars input_path errors)) := by
  constructor
  · intro xs
    rcases h : mapLoop arg tail vars input_path xs 0 errors with ⟨out, e2⟩
    have hout : out = mapSpecResult fArg fTail input_path xs 0 := by
      have := mapLoop_spec arg tail vars fArg fTail hArg hTail input_path xs 0 errors
      rw [h] at this
      exact this
    refine ⟨e2, ?_, mapSpecResult_length fArg fTail input_path xs 0⟩
    simp only [map_method, h, hout]
  · intro data hdata
    cases data <;> first
      | exact Bool.noConfusion hdata
      | rfl

/-- Witness for C4: mapping the identity argument `@` over `[null, true]`
with the empty continuation, hypotheses discharged definitionally. -/
theorem c4_witness : ∃ errors2 : List ApplyToError,
    map_method "map" (some ⟨[atVar]⟩) (.array [.null, .boolean true]) [] [] idTail [] =
      .ok (some (.array (mapSpecResult (fun d _ => some d) (fun v _ => some v) []
        [.null, .boolean true] 0)), errors2) ∧
    (mapSpecResult (fun d _ => some d) (fun v _ => some v) [] [.null, .boolean true] 0).length =
      ([.null, .boolean true] : List JSON).length :=
  (c4_map atVar [] idTail [] (fun d _ => some d) (fun v _ => some v)
    (fun _ _ _ => rfl) (fun _ _ _ => rfl) "map" [] []).1 [.null, .boolean true]

/-- An evaluation function is well-behaved when returning no value implies
that the accumulator it returns holds an error attributable to (at or below)
the input path it was given — the discipline spec section 4.4 imposes on the
sub-evaluators. -/
def ErrorsOnNone (f : JSON → VarsWithPathsMap → InputPath → List ApplyToError →
    Option JSON × List ApplyToError) : Prop :=
  ∀ data vars input_path errors,
    (f data vars input_path errors).1 = none →
    ∃ err ∈ (f data vars input_path errors).2, PathExtends input_path err.path

/-- Hereditarily well-behaved literals: the evaluation function of an
abstract expression, and every element of an array literal, recursively. -/
inductive WBLit : JSLiteral → Prop where
  | expr {f} (hf : ErrorsOnNone f) : WBLit (.expr f)
  | array {elements} (helems : ∀ l ∈ elements, WBLit l) : WBLit (.array elements)

/-- Injectivity of a non-panicking pair outcome. -/
theorem ok_inj {α : Type} {a b : α} (h : (PanicOr.ok a) = .ok b) : a = b := by
  injection h

/-- Evaluating the elements of an array literal of well-behaved elements
yields an attributable error whenever it yields no value list. -/
theorem applyElements_none :
    ∀ (elements : List JSLiteral),
    (∀ l ∈ elements, ErrorsOnNone l.apply_to_path) →
    ∀ (data : JSON) (vars : VarsWithPathsMap) (input_path : InputPath)
      (errors : List ApplyToError),
    (JSLiteral.applyElements elements data vars input_path errors).1 = none →
    ∃ err ∈ (JSLiteral.applyElements elements data vars input_path errors).2,
      PathExtends input_path err.path := by
  intro elements
  induction elements with
  | nil => intro _ data vars input_path errors hnone; exact absurd hnone (by simp [JSLiteral.applyElements])
  | cons l ls ih =>
    intro h data vars input_path errors hnone
    have hl := h l (by simp)
    have hls := fun z hz => h z (List.mem_cons_of_mem l hz)
    rcases h1 : l.apply_to_path data vars input_path errors with ⟨vOpt, e1⟩
    cases vOpt with
    | none =>
      have := hl data vars input_path errors
      rw [h1] at this
      simp only [JSLiteral.applyElements, h1]
      exact this rfl
    | some v =>
      rcases h2 : JSLiteral.applyElements ls data vars input_path e1 with ⟨vsOpt, e2⟩
      cases vsOpt with
      | none =>
        have := ih hls data vars input_path e1
        rw [h2] at this
        simp only [JSLiteral.applyElements, h1, h2]
        exact this rfl
      | some vs =>
        simp only [JSLiteral.applyElements, h1, h2] at hnone
        exact absurd hnone (by simp)

/-- A hereditarily well-behaved literal has a well-behaved evaluation. -/
theorem wblit_eon : ∀ {l : JSLiteral}, WBLit l → ErrorsOnNone l.apply_to_path := by
  intro l h
  induction h with
  | expr hf => exact hf
  | @array elements helems ih =>
    intro data vars input_path errors hnone
    rcases h2 : JSLiteral.applyElements elements data vars input_path errors with ⟨vsOpt, e2⟩
    cases vsOpt with
    | none =>
      have := applyElements_none elements ih data vars input_path errors
      rw [h2] at this
      simp only [JSLiteral.apply_to_path, h2]
      exact this rfl
    | some vs =>
      simp only [JSLiteral.apply_to_path, h2] at hnone
      exact absurd hnone (by simp)

/-- Well-behavedness of an optional argument list: every literal in it is
hereditarily well-behaved. -/
def MethodArgsWB : Option MethodArgs → Prop
  | none => True
  | some m => ∀ l ∈ m.args, WBLit l

/-- A method outcome built by inserting an error at the input path leaves an
attributable error. -/
theorem eon_of_insert {a : Option JSON} {errors errors2 : List ApplyToError} {out : Option JSON}
    {msg : String} {input_path : List JSON}
    (h : (PanicOr.ok (a, insertError errors ⟨msg, input_path⟩) :
      PanicOr (Option JSON × List ApplyToError)) = .ok (out, errors2)) :
    ∃ err ∈ errors2, PathExtends input_path err.path := by
  have hp := ok_inj h
  have h2 : insertError errors ⟨msg, input_path⟩ = errors2 := congrArg Prod.snd hp
  rw [← h2]
  exact insertError_attributable errors msg input_path

/-- A method outcome that hands a value to a well-behaved tail leaves an
attributable error whenever the overall result is no value. -/
theorem eon_of_tail {tail : PathList} (htail : ErrorsOnNone tail.apply_to_path)
    {v : JSON} {vars : VarsWithPathsMap} {input_path : InputPath}
    {e : List ApplyToError} {out : Option JSON} {errors2 : List ApplyToError}
    (h : (PanicOr.ok (tail.apply_to_path v vars input_path e) :
      PanicOr (Option JSON × List ApplyToError)) = .ok (out, errors2))
    (hout : out = none) :
    ∃ err ∈ errors2, PathExtends input_path err.path := by
  have hp := ok_inj h
  have h1 : (tail.apply_to_path v vars input_path e).1 = none := by
    rw [congrArg Prod.fst hp, hout]
  have h3 := htail v vars input_path e h1
  have h2 : (tail.apply_to_path v vars input_path e).2 = errors2 := congrArg Prod.snd hp
  rw [← h2]
  exact h3

/-- A well-behaved literal that evaluates to no value leaves an attributable
error in the accumulator it returns. -/
theorem eon_of_lit_none {l : JSLiteral} (hl : WBLit l) {data : JSON}
    {vars : VarsWithPathsMap} {input_path : InputPath} {e e1 : List ApplyToError}
    (h1 : l.apply_to_path data vars input_path e = (none, e1)) :
    ∃ err ∈ e1, PathExtends input_path err.path := by
  have h2 := wblit_eon hl data vars input_path e
  rw [h1] at h2
  exact h2 rfl

/-- The property spec section 4.4 demands of a method: given well-behaved
arguments and tail, a non-panicking invocation that returns no value leaves
an error attributable to the current input path. -/
def MethodEON (m : ArrowMethod) : Prop :=
  ∀ (name : String) (args : Option MethodArgs) (data : JSON) (vars : VarsWithPathsMap)
    (input_path : InputPath) (tail : PathList) (errors errors2 : List ApplyToError)
    (out : Option JSON),
    MethodArgsWB args → ErrorsOnNone tail.apply_to_path →
    m name args data vars input_path tail errors = .ok (out, errors2) → out = none →
    ∃ err ∈ errors2, PathExtends input_path err.path

theorem echo_eon : MethodEON echo_method := by
  intro name args data vars input_path tail errors errors2 out hargs htail heval hout
  rcases args with _ | ⟨⟨_ | ⟨arg, rest⟩⟩⟩
  · exact eon_of_insert heval
  · exact eon_of_insert heval
  · have harg : WBLit arg := hargs arg (by simp)
    rcases h1 : arg.apply_to_path data vars input_path errors with ⟨vOpt, e1⟩
    cases vOpt with
    | none =>
      simp only [echo_method, h1] at heval
      have h2 : e1 = errors2 := congrArg Prod.snd (ok_inj heval)
      rw [← h2]
      exact eon_of_lit_none harg h1
    | some v =>
      simp only [echo_method, h1] at heval
      exact eon_of_tail htail heval hout

theorem typeof_eon : MethodEON typeof_method := by
  intro name args data vars input_path tail errors errors2 out hargs htail heval hout
  rcases args with _ | ⟨⟨args⟩⟩
  · exact eon_of_tail htail heval hout
  · exact eon_of_insert heval

theorem map_eon : MethodEON map_method := by
  intro name args data vars input_path tail errors errors2 out hargs htail heval hout
  rcases args with _ | ⟨⟨_ | ⟨arg, rest⟩⟩⟩
  · exact eon_of_insert heval
  · exact eon_of_insert heval
  · have harg : WBLit arg := hargs arg (by simp)
    cases data with
    | array xs =>
      rcases h1 : mapLoop arg tail vars input_path xs 0 errors with ⟨outList, e1⟩
      simp only [map_method, h1] at heval
      have h2 : some (JSON.array outList) = out := congrArg Prod.fst (ok_inj heval)
      rw [hout] at h2
      exact Option.noConfusion h2
    | null =>
      rcases h1 : arg.apply_to_path .null vars input_path errors with ⟨vOpt, e1⟩
      simp only [map_method, h1] at heval
      have h2 : e1 = errors2 := congrArg Prod.snd (ok_inj heval)
      have h3 : vOpt = out := congrArg Prod.fst (ok_inj heval)
      rw [← h2]
      rw [hout] at h3
      rw [h3] at h1
      exact eon_of_lit_none harg h1
    | boolean b =>
      rcases h1 : arg.apply_to_path (.boolean b) vars input_path errors with ⟨vOpt, e1⟩
      simp only [map_method, h1] at heval
      have h2 : e1 = errors2 := congrArg Prod.snd (ok_inj heval)
      have h3 : vOpt = out := congrArg Prod.fst (ok_inj heval)
      rw [← h2]
      rw [hout] at h3
      rw [h3] at h1
      exact eon_of_lit_none harg h1
    | number n =>
      rcases h1 : arg.apply_to_path (.number n) vars input_path errors with ⟨vOpt, e1⟩
      simp only [map_method, h1] at heval
      have h2 : e1 = errors2 := congrArg Prod.snd (ok_inj heval)
      have h3 : vOpt = out := congrArg Prod.fst (ok_inj heval)
      rw [← h2]
      rw [hout] at h3
      rw [h3] at h1
      exact eon_of_lit_none harg h1
    | string s =>
      rcases h1 : arg.apply_to_path (.string s) vars input_path errors with ⟨vOpt, e1⟩
      simp only [map_method, h1] at heval
      have h2 : e1 = errors2 := congrArg Prod.snd (ok_inj heval)
      have h3 : vOpt = out := congrArg Prod.fst (ok_inj heval)
      rw [← h2]
      rw [hout] at h3
      rw [h3] at h1
      exact eon_of_lit_none harg h1
    | object fs =>
      rcases h1 : arg.apply_to_path (.object fs) vars input_path errors with ⟨vOpt, e1⟩
      simp only [map_method, h1] at heval
      have h2 : e1 = errors2 := congrArg Prod.snd (ok_inj heval)
      have h3 : vOpt = out := congrArg Prod.fst (ok_inj heval)
      rw [← h2]
      rw [hout] at h3
      rw [h3] at h1
      exact eon_of_lit_none harg h1

theorem eq_eon : MethodEON eq_method := by
  intro name args data vars input_path tail errors errors2 out hargs htail heval hout
  rcases args with _ | ⟨⟨_ | ⟨arg, _ | ⟨b, rest⟩⟩⟩⟩
  · exact eon_of_insert heval
  · exact eon_of_insert heval
  · rcases h1 : arg.apply_to_path data vars input_path errors with ⟨vOpt, e1⟩
    cases vOpt with
    | none =>
      simp only [eq_method, h1] at heval
      exact eon_of_tail htail heval hout
    | some v =>
      simp only [eq_method, h1] at heval
      exact eon_of_tail htail heval hout
  · exact eon_of_insert heval

theorem not_eon : MethodEON not_method := by
  intro name args data vars input_path tail errors errors2 out hargs htail heval hout
  rcases args with _ | ⟨⟨args⟩⟩
  · exact eon_of_tail htail heval hout
  · exact eon_of_insert heval

theorem or_eon : MethodEON or_method := by
  intro name args data vars input_path tail errors errors2 out hargs htail heval hout
  rcases args with _ | ⟨⟨args⟩⟩
  · exact eon_of_insert heval
  · rcases h1 : orLoop data vars input_path args (is_truthy data) errors with ⟨r, e1⟩
    simp only [or_method, h1] at heval
    exact eon_of_tail htail heval hout

theorem and_eon : MethodEON and_method := by
  intro name args data vars input_path tail errors errors2 out hargs htail heval hout
  rcases args with _ | ⟨⟨args⟩⟩
  · exact eon_of_insert heval
  · rcases h1 : andLoop data vars input_path args (is_truthy data) errors with ⟨r, e1⟩
    simp only [and_method, h1] at heval
    exact eon_of_tail htail heval hout

theorem matchLoop_eon (name : String) (data : JSON) (vars : VarsWithPathsMap)
    (input_path : InputPath) (tail : PathList) (htail : ErrorsOnNone tail.apply_to_path) :
    ∀ (pairs : List JSLiteral) (errors errors2 : List ApplyToError) (out : Option JSON),
    (∀ l ∈ pairs, WBLit l) →
    matchLoop name data vars input_path tail pairs errors = .ok (out, errors2) →
    out = none →
    ∃ err ∈ errors2, PathExtends input_path err.path := by
  intro pairs
  induction pairs with
  | nil =>
    intro errors errors2 out _ heval hout
    exact eon_of_insert heval
  | cons pair rest ih =>
    intro errors errors2 out hwb heval hout
    have hrest := fun z hz => hwb z (List.mem_cons_of_mem pair hz)
    cases pair with
    | expr f => exact ih errors errors2 out hrest heval hout
    | array elements =>
      have hpair : WBLit (.array elements) := hwb _ (by simp)
      have helems : ∀ l ∈ elements, WBLit l := by
        cases hpair with | array h => exact h
      match elements with
      | [] => exact ih errors errors2 out hrest heval hout
      | [v] =>
        have hv : WBLit v := helems v (by simp)
        rcases h1 : v.apply_to_path data vars input_path errors with ⟨vOpt, e1⟩
        cases vOpt with
        | none =>
          simp only [matchLoop, h1] at heval
          have h2 : e1 = errors2 := congrArg Prod.snd (ok_inj heval)
          rw [← h2]
          exact eon_of_lit_none hv h1
        | some v2 =>
          simp only [matchLoop, h1] at heval
          exact eon_of_tail htail heval hout
      | [c, val] =>
        have hval : WBLit val := helems val (by simp)
        rcases h1 : c.apply_to_path data vars input_path errors with ⟨cOpt, e1⟩
        cases cOpt with
        | none =>
          simp only [matchLoop, h1] at heval
          exact ih e1 errors2 out hrest heval hout
        | some cv =>
          simp only [matchLoop, h1] at heval
          by_cases hbeq : cv.beq data
          · rw [if_pos hbeq] at heval
            rcases h2 : val.apply_to_path data vars input_path e1 with ⟨vOpt, e2⟩
            rw [h2] at heval
            cases vOpt with
            | none =>
              have h3 : e2 = errors2 := congrArg Prod.snd (ok_inj heval)
              rw [← h3]
              exact eon_of_lit_none hval h2
            | some v2 =>
              exact eon_of_tail htail heval hout
          · rw [if_neg hbeq] at heval
            exact ih e1 errors2 out hrest heval hout
      | v1 :: v2 :: v3 :: vrest => exact ih errors errors2 out hrest heval hout

theorem match_eon : MethodEON match_method := by
  intro name args data vars input_path tail errors errors2 out hargs htail heval hout
  rcases args with _ | ⟨⟨largs⟩⟩
  · exact eon_of_insert heval
  · exact matchLoop_eon name data vars input_path tail htail largs errors errors2 out
      hargs heval hout

theorem matchIfLoop_eon (name : String) (data : JSON) (vars : VarsWithPathsMap)
    (input_path : InputPath) (tail : PathList) (htail : ErrorsOnNone tail.apply_to_path) :
    ∀ (pairs : List JSLiteral) (errors errors2 : List ApplyToError) (out : Option JSON),
    (∀ l ∈ pairs, WBLit l) →
    matchIfLoop name data vars input_path tail pairs errors = .ok (out, errors2) →
    out = none →
    ∃ err ∈ errors2, PathExtends input_path err.path := by
  intro pairs
  induction pairs with
  | nil =>
    intro errors errors2 out _ heval hout
    exact eon_of_insert heval
  | cons pair rest ih =>
    intro errors errors2 out hwb heval hout
    have hrest := fun z hz => hwb z (List.mem_cons_of_mem pair hz)
    cases pair with
    | expr f => exact ih errors errors2 out hrest heval hout
    | array elements =>
      have hpair : WBLit (.array elements) := hwb _ (by simp)
      have helems : ∀ l ∈ elements, WBLit l := by
        cases hpair with | array h => exact h
      match elements with
      | [] => exact ih errors errors2 out hrest heval hout
      | [v] => exact ih errors errors2 out hrest heval hout
      | [c, val] =>
        have hval : WBLit val := helems val (by simp)
        rcases h1 : c.apply_to_path data vars input_path errors with ⟨cOpt, e1⟩
        match cOpt with
        | some (JSON.boolean true) =>
          simp only [matchIfLoop, h1] at heval
          rcases h2 : val.apply_to_path data vars input_path e1 with ⟨vOpt, e2⟩
          rw [h2] at heval
          cases vOpt with
          | none =>
            have h3 : e2 = errors2 := congrArg Prod.snd (ok_inj heval)
            rw [← h3]
            exact eon_of_lit_none hval h2
          | some v2 => exact eon_of_tail htail heval hout
        | some (JSON.boolean false) =>
          simp only [matchIfLoop, h1] at heval
          exact ih e1 errors2 out hrest heval hout
        | some JSON.null =>
          simp only [matchIfLoop, h1] at heval
          exact ih e1 errors2 out hrest heval hout
        | some (JSON.number n) =>
          simp only [matchIfLoop, h1] at heval
          exact ih e1 errors2 out hrest heval hout
        | some (JSON.string s) =>
          simp only [matchIfLoop, h1] at heval
          exact ih e1 errors2 out hrest heval hout
        | some (JSON.array a) =>
          simp only [matchIfLoop, h1] at heval
          exact ih e1 errors2 out hrest heval hout
        | some (JSON.object o) =>
          simp only [matchIfLoop, h1] at heval
          exact ih e1 errors2 out hrest heval hout
        | none =>
          simp only [matchIfLoop, h1] at heval
          exact ih e1 errors2 out hrest heval hout
      | v1 :: v2 :: v3 :: vrest => exact ih errors errors2 out hrest heval hout

theorem match_if_eon : MethodEON match_if_method := by
  intro name args data vars input_path tail errors errors2 out hargs htail heval hout
  rcases args with _ | ⟨⟨largs⟩⟩
  · exact eon_of_insert heval
  · exact matchIfLoop_eon name data vars input_path tail htail largs errors errors2 out
      hargs heval hout

theorem arithLoop_eon (name : String) (op : Number → Number → PanicOr (Option Number))
    (data : JSON) (vars : VarsWithPathsMap) (input_path : InputPath) :
    ∀ (args : List JSLiteral) (result : Number) (errors errors2 : List ApplyToError)
      (out : Option JSON),
    (∀ l ∈ args, WBLit l) →
    arithLoop name op data vars input_path args result errors = .ok (out, errors2) →
    out = none →
    ∃ err ∈ errors2, PathExtends input_path err.path := by
  intro args
  induction args with
  | nil =>
    intro result errors errors2 out _ heval hout
    have h3 : some (JSON.number result) = out := congrArg Prod.fst (ok_inj heval)
    rw [hout] at h3
    exact Option.noConfusion h3
  | cons arg rest ih =>
    intro result errors errors2 out hwb heval hout
    have hrest := fun z hz => hwb z (List.mem_cons_of_mem arg hz)
    rcases h1 : arg.apply_to_path data vars input_path errors with ⟨vOpt, e1⟩
    cases vOpt with
    | none =>
      simp only [arithLoop, h1] at heval
      exact eon_of_insert heval
    | some v =>
      cases v with
      | number n =>
        cases h2 : op result n with
        | panicked =>
          simp only [arithLoop, h1, h2] at heval
          exact PanicOr.noConfusion heval
        | ok a =>
          cases a with
          | some newResult =>
            simp only [arithLoop, h1, h2] at heval
            exact ih newResult e1 errors2 out hrest heval hout
          | none =>
            simp only [arithLoop, h1, h2] at heval
            exact eon_of_insert heval
      | null =>
        simp only [arithLoop, h1] at heval
        exact eon_of_insert heval
      | boolean b =>
        simp only [arithLoop, h1] at heval
        exact eon_of_insert heval
      | string s =>
        simp only [arithLoop, h1] at heval
        exact eon_of_insert heval
      | array a =>
        simp only [arithLoop, h1] at heval
        exact eon_of_insert heval
      | object o =>
        simp only [arithLoop, h1] at heval
        exact eon_of_insert heval

theorem arithmetic_method_eon (name : String) (margs : Option MethodArgs)
    (op : Number → Number → PanicOr (Option Number)) (data : JSON)
    (vars : VarsWithPathsMap) (input_path : InputPath)
    (errors errors2 : List ApplyToError) (out : Option JSON)
    (hargs : MethodArgsWB margs)
    (heval : arithmetic_method name margs op data vars input_path errors = .ok (out, errors2))
    (hout : out = none) :
    ∃ err ∈ errors2, PathExtends input_path err.path := by
  rcases margs with _ | ⟨⟨largs⟩⟩
  · exact eon_of_insert heval
  · cases data with
    | number result =>
      exact arithLoop_eon name op (.number result) vars input_path largs result errors
        errors2 out hargs heval hout
    | null => exact eon_of_insert heval
    | boolean b => exact eon_of_insert heval
    | string s => exact eon_of_insert heval
    | array a => exact eon_of_insert heval
    | object o => exact eon_of_insert heval

theorem infix_math_eon (op : Number → Number → PanicOr (Option Number)) :
    MethodEON (infix_math_method op) := by
  intro name args data vars input_path tail errors errors2 out hargs htail heval hout
  cases h1 : arithmetic_method name args op data vars input_path errors with
  | panicked =>
    simp only [infix_math_method, h1] at heval
    exact PanicOr.noConfusion heval
  | ok a =>
    rcases a with ⟨rOpt, e1⟩
    cases rOpt with
    | some r =>
      simp only [infix_math_method, h1] at heval
      exact eon_of_tail htail heval hout
    | none =>
      simp only [infix_math_method, h1] at heval
      have h2 : e1 = errors2 := congrArg Prod.snd (ok_inj heval)
      rw [← h2]
      exact arithmetic_method_eon name args op data vars input_path errors e1 none
        hargs h1 rfl

theorem first_eon_or_empty (name : String) (args : Option MethodArgs) (data : JSON)
    (vars : VarsWithPathsMap) (input_path : InputPath) (tail : PathList)
    (errors errors2 : List ApplyToError) (out : Option JSON)
    (htail : ErrorsOnNone tail.apply_to_path)
    (heval : first_method name args data vars input_path tail errors = .ok (out, errors2))
    (hout : out = none) :
    (∃ err ∈ errors2, PathExtends input_path err.path) ∨ data = .array [] := by
  rcases args with _ | ⟨⟨largs⟩⟩
  · cases data with
    | array xs =>
      cases xs with
      | nil => exact Or.inr rfl
      | cons x rest => exact Or.inl (eon_of_tail htail heval hout)
    | null => exact Or.inl (eon_of_tail htail heval hout)
    | boolean b => exact Or.inl (eon_of_tail htail heval hout)
    | number n => exact Or.inl (eon_of_tail htail heval hout)
    | string s => exact Or.inl (eon_of_tail htail heval hout)
    | object o => exact Or.inl (eon_of_tail htail heval hout)
  · exact Or.inl (eon_of_insert heval)

theorem last_eon_or_empty (name : String) (args : Option MethodArgs) (data : JSON)
    (vars : VarsWithPathsMap) (input_path : InputPath) (tail : PathList)
    (errors errors2 : List ApplyToError) (out : Option JSON)
    (htail : ErrorsOnNone tail.apply_to_path)
    (heval : last_method name args data vars input_path tail errors = .ok (out, errors2))
    (hout : out = none) :
    (∃ err ∈ errors2, PathExtends input_path err.path) ∨ data = .array [] := by
  rcases args with _ | ⟨⟨largs⟩⟩
  · cases data with
    | array xs =>
      cases xs with
      | nil => exact Or.inr rfl
      | cons x rest =>
        cases h1 : (x :: rest).getLast? with
        | none =>
          rw [List.getLast?_eq_none_iff] at h1
          exact List.noConfusion h1
        | some l =>
          simp only [last_method, h1] at heval
          exact Or.inl (eon_of_tail htail heval hout)
    | null => exact Or.inl (eon_of_tail htail heval hout)
    | boolean b => exact Or.inl (eon_of_tail htail heval hout)
    | number n => exact Or.inl (eon_of_tail htail heval hout)
    | string s => exact Or.inl (eon_of_tail htail heval hout)
    | object o => exact Or.inl (eon_of_tail htail heval hout)
  · exact Or.inl (eon_of_insert heval)

theorem slice_eon : MethodEON slice_method := by
  intro name args data vars input_path tail errors errors2 out hargs htail heval hout
  cases data with
  | array xs =>
    rcases args with _ | ⟨⟨largs⟩⟩
    · have h3 : some (JSON.array xs) = out := congrArg Prod.fst (ok_inj heval)
      rw [hout] at h3
      exact Option.noConfusion h3
    · simp only [slice_method, sliceLength] at heval
      exact eon_of_tail htail heval hout
  | string s =>
    rcases args with _ | ⟨⟨largs⟩⟩
    · have h3 : some (JSON.string s) = out := congrArg Prod.fst (ok_inj heval)
      rw [hout] at h3
      exact Option.noConfusion h3
    · simp only [slice_method, sliceLength] at heval
      split at heval
      · split at heval
        · exact eon_of_tail htail heval hout
        · exact PanicOr.noConfusion heval
      · exact eon_of_tail htail heval hout
  | null =>
    simp only [slice_method, sliceLength] at heval
    exact eon_of_insert heval
  | boolean b =>
    simp only [slice_method, sliceLength] at heval
    exact eon_of_insert heval
  | number n =>
    simp only [slice_method, sliceLength] at heval
    exact eon_of_insert heval
  | object o =>
    simp only [slice_method, sliceLength] at heval
    exact eon_of_insert heval

/-- C5: for every method in the registry, a non-panicking invocation with
well-behaved arguments and tail that returns no value leaves at least one
error in the accumulator attributable to the current input path (the path
itself or an extension recorded by a sub-evaluation), with the sole
exception of `first`/`last` applied to an empty array, which yield no value
and no error. -/
theorem c5_none_implies_error (name : String) (m : ArrowMethod)
    (hmem : (name, m) ∈ ARROW_METHODS) (args : Option MethodArgs) (data : JSON)
    (vars : VarsWithPathsMap) (input_path : InputPath) (tail : PathList)
    (errors errors2 : List ApplyToError) (out : Option JSON)
    (hargs : MethodArgsWB args) (htail : ErrorsOnNone tail.apply_to_path)
    (heval : m name args data vars input_path tail errors = .ok (out, errors2))
    (hout : out = none) :
    (∃ err ∈ errors2, PathExtends input_path err.path) ∨
      ((m = first_method ∨ m = last_method) ∧ data = .array []) := by
  simp only [ARROW_METHODS, List.mem_cons, List.not_mem_nil, or_false,
    Prod.mk.injEq] at hmem
  rcases hmem with ⟨hn, hm⟩ | ⟨hn, hm⟩ | ⟨hn, hm⟩ | ⟨hn, hm⟩ | ⟨hn, hm⟩ | ⟨hn, hm⟩ |
    ⟨hn, hm⟩ | ⟨hn, hm⟩ | ⟨hn, hm⟩ | ⟨hn, hm⟩ | ⟨hn, hm⟩ | ⟨hn, hm⟩ | ⟨hn, hm⟩ |
    ⟨hn, hm⟩ | ⟨hn, hm⟩ | ⟨hn, hm⟩ | ⟨hn, hm⟩ | ⟨hn, hm⟩ <;> subst hm
  · exact Or.inl (echo_eon name args data vars input_path tail errors errors2 out
      hargs htail heval hout)
  · exact Or.inl (typeof_eon name args data vars input_path tail errors errors2 out
      hargs htail heval hout)
  · exact Or.inl (map_eon name args data vars input_path tail errors errors2 out
      hargs htail heval hout)
  · exact Or.inl (eq_eon name args data vars input_path tail errors errors2 out
      hargs htail heval hout)
  · exact Or.inl (match_eon name args data vars input_path tail errors errors2 out
      hargs htail heval hout)
  · exact Or.inl (match_if_eon name args data vars input_path tail errors errors2 out
      hargs htail heval hout)
  · exact Or.inl (match_if_eon name args data vars input_path tail errors errors2 out
      hargs htail heval hout)
  · exact Or.inl (infix_math_eon add_op name args data vars input_path tail errors errors2 out
      hargs htail heval hout)
  · exact Or.inl (infix_math_eon sub_op name args data vars input_path tail errors errors2 out
      hargs htail heval hout)
  · exact Or.inl (infix_math_eon mul_op name args data vars input_path tail errors errors2 out
      hargs htail heval hout)
  · exact Or.inl (infix_math_eon div_op name args data vars input_path tail errors errors2 out
      hargs htail heval hout)
  · exact Or.inl (infix_math_eon rem_op name args data vars input_path tail errors errors2 out
      hargs htail heval hout)
  · rcases first_eon_or_empty name args data vars input_path tail errors errors2 out
      htail heval hout with he | he
    · exact Or.inl he
    · exact Or.inr ⟨Or.inl rfl, he⟩
  · rcases last_eon_or_empty name args data vars input_path tail errors errors2 out
      htail heval hout with he | he
    · exact Or.inl he
    · exact Or.inr ⟨Or.inr rfl, he⟩
  · exact Or.inl (slice_eon name args data vars input_path tail errors errors2 out
      hargs htail heval hout)
  · exact Or.inl (not_eon name args data vars input_path tail errors errors2 out
      hargs htail heval hout)
  · exact Or.inl (or_eon name args data vars input_path tail errors errors2 out
      hargs htail heval hout)
  · exact Or.inl (and_eon name args data vars input_path tail errors errors2 out
      hargs htail heval hout)

/-- Witness for C5 at the registry entry `typeof` invoked with an empty
argument list on `null`: the invocation yields no value and the returned
accumulator holds the arity error at the (empty) input path. -/
theorem c5_witness :
    (∃ err ∈ ([⟨"Method ->typeof does not take any arguments", []⟩] : List ApplyToError),
      PathExtends [] err.path) ∨
    ((typeof_method = first_method ∨ typeof_method = last_method) ∧
      JSON.null = .array []) :=
  c5_none_implies_error "typeof" typeof_method (by simp [ARROW_METHODS]) (some ⟨[]⟩)
    .null [] [] idTail [] [⟨"Method ->typeof does not take any arguments", []⟩] none
    (fun l hl => absurd hl (List.not_mem_nil l))
    (fun d v p e h => Option.noConfusion h) rfl rfl
